import Mathlib

/-!
Verification of the recursive schema-reference resolver in
`ogc-contributions/bblock-template/tools/resolve_schema.py`.

JSON-compatible values are embedded as the inductive `JVal`; Python dicts
become ordered key/value spines (`onil`/`ocons`) and lists become element
spines (`anil`/`acons`), preserving insertion order exactly as Python's
`dict` does.  Strings are embedded as `List Char` so that the parsing done
on `$ref` strings (prefix tests, splitting on `'#'` and `'/'`) can be both
executed and reasoned about.  The mutually recursive resolver functions
(`resolve_file`, `resolve_node`, `_resolve_ref`, `_inline_unresolved_defs`,
`_resolve_bblocks_ref`) are embedded as a single fuel-indexed interpreter
`run` over a `Call` sum type, so that every concrete resolution can be
evaluated by the kernel; fuel exhaustion is the distinguished outcome
`.error .fuel`.  Uncaught Python exceptions (`ValueError` from `int()`,
`IndexError` from list indexing, `FileNotFoundError` from `open`,
`AttributeError` from calling string methods on non-strings) are embedded
as `Except` errors that propagate, since the source catches only
`KeyError` at its two `resolve_fragment` call sites.
-/

/-- Strings of the embedding: Python `str` as a list of characters. -/
abbrev Str := List Char

/-- Converts a Lean string literal into the embedding's string type. -/
def cs (s : String) : Str := s.toList

/-- Python `s.split(c)` for a one-character separator: always returns a
non-empty list, with empty pieces between adjacent separators
(`"".split("/") == [""]`, `"a//b".split("/") == ["a","","b"]`). -/
def splitOnChar (c : Char) : Str → List Str
  | [] => [[]]
  | x :: xs =>
    if x = c then [] :: splitOnChar c xs
    else
      match splitOnChar c xs with
      | [] => [[x]]
      | p :: ps => (x :: p) :: ps

/-- Python `"/".join(parts)`. -/
def joinSlash : List Str → Str
  | [] => []
  | [p] => p
  | p :: ps => p ++ '/' :: joinSlash ps

/-- Python `ref.split("#", 1)` combined with the `"#" in ref` test:
returns the part before the first `'#'`, and `some` of the part after it
when a `'#'` is present (`none` otherwise). -/
def splitHash : Str → Str × Option Str
  | [] => ([], none)
  | x :: xs =>
    if x = '#' then ([], some xs)
    else
      let (a, b) := splitHash xs
      (x :: a, b)

/-!  ## The JSON data model (SchemaNode)  -/

/-- A JSON-compatible value.  Objects and arrays are encoded as spines so
that every traversal in the development is plain structural recursion:
`ocons k v rest` is a dict whose first entry is `k ↦ v` with remaining
entries `rest` (an `onil`/`ocons` spine), mirroring Python's
insertion-ordered `dict`; `acons x rest` likewise for lists. -/
inductive JVal where
  | jstr  : Str → JVal
  | jint  : Int → JVal
  | jbool : Bool → JVal
  | jnull : JVal
  | anil  : JVal
  | acons : JVal → JVal → JVal
  | onil  : JVal
  | ocons : Str → JVal → JVal → JVal
deriving DecidableEq, Repr

/-- Builds an object spine from a list of entries. -/
def jobj : List (Str × JVal) → JVal
  | [] => .onil
  | (k, v) :: r => .ocons k v (jobj r)

/-- Builds an array spine from a list of elements. -/
def jarr : List JVal → JVal
  | [] => .anil
  | x :: r => .acons x (jarr r)

/-- Is this value a Python `dict` (`isinstance(node, dict)`)? -/
def isObj : JVal → Bool
  | .onil | .ocons _ _ _ => true
  | _ => false

/-- Python `k in d` on a dict spine. -/
def hasKey : JVal → Str → Bool
  | .ocons k _ r, key => k = key || hasKey r key
  | _, _ => false

/-- Python `d[k]` / `d.get(k)` on a dict spine (first occurrence). -/
def dictGet : JVal → Str → Option JVal
  | .ocons k v r, key => if k = key then some v else dictGet r key
  | _, _ => none

/-- Python `d[k] = v` on a dict spine: replaces the value in place when the
key is present, appends the entry at the end otherwise. -/
def dictSet : JVal → Str → JVal → JVal
  | .ocons k v r, key, nv =>
    if k = key then .ocons key nv r else .ocons k v (dictSet r key nv)
  | .onil, key, nv => .ocons key nv .onil
  | other, _, _ => other

/-- Python `d.pop(k, None)` restricted to its effect on the dict: removes
the (first) entry with the given key, if any. -/
def removeKey : JVal → Str → JVal
  | .ocons k v r, key => if k = key then r else .ocons k v (removeKey r key)
  | other, _ => other

/-- `list(d.keys())` on a dict spine. -/
def keysOf : JVal → List Str
  | .ocons k _ r => k :: keysOf r
  | _ => []

/-!  ## Deep merge (resolve_schema.py lines 121–162)  -/

/-- The frozen key set `_SCHEMA_DEF_KEYS`. -/
def SCHEMA_DEF_KEYS : List Str :=
  [cs "type", cs "oneOf", cs "anyOf", cs "allOf", cs "$ref"]

/-- `_is_complete_schema(d)`: true when the dict's keys intersect
`_SCHEMA_DEF_KEYS` (it carries `type`, a composition keyword, or `$ref`)
at its own top level. -/
def isCompleteSchema : JVal → Bool
  | .ocons k _ r => SCHEMA_DEF_KEYS.contains k || isCompleteSchema r
  | _ => false

/-- `_deep_merge_inner(base, overlay, in_properties)`.  `base` plays the
role of `result = copy.deepcopy(base)` (deep copies are the identity on
pure values; the heap model at the end of this file treats the mutation
and copying behaviour itself); the overlay's entries are folded in left to
right.  For a key present in both sides with dict values on both sides:
inside a `properties` map an overlay value that `_is_complete_schema`
replaces the base value wholesale, otherwise the two are merged
recursively (with `in_properties` set exactly when the key is
`"properties"`).  In every other case the overlay entry replaces/creates
the entry. -/
def deepMergeInner (inProps : Bool) (base : JVal) : JVal → JVal
  | .ocons k v rest =>
    let base' :=
      match dictGet base k with
      | some rb =>
        if isObj rb && isObj v then
          if inProps && isCompleteSchema v then dictSet base k v
          else dictSet base k (deepMergeInner (k = cs "properties") rb v)
        else dictSet base k v
      | none => dictSet base k v
    deepMergeInner inProps base' rest
  | _ => base

/-- `deep_merge(base, overlay)`: the public entry point, starting with
`in_properties=False`. -/
def deep_merge (base overlay : JVal) : JVal := deepMergeInner false base overlay

/-!  ## Metadata stripping (resolve_schema.py lines 48, 86–114)  -/

/-- `DEFAULT_STRIP_KEYS`. -/
def DEFAULT_STRIP_KEYS : List Str :=
  [cs "$id", cs "x-jsonld-prefixes", cs "x-jsonld-context", cs "x-jsonld-extra-terms"]

/-- `strip_metadata_keys(schema, strip_keys, is_root)`: drops keys in
`stripKeys`, every key starting with `"x-jsonld"`, and `"$schema"` when
not at the root; values are stripped with `is_root=False`, the remaining
entries of the same object keep the current `is_root`. -/
def strip_metadata_keys (stripKeys : List Str) : Bool → JVal → JVal
  | isRoot, .ocons k v r =>
    if stripKeys.contains k then strip_metadata_keys stripKeys isRoot r
    else if (cs "x-jsonld").isPrefixOf k then strip_metadata_keys stripKeys isRoot r
    else if k = cs "$schema" && !isRoot then strip_metadata_keys stripKeys isRoot r
    else .ocons k (strip_metadata_keys stripKeys false v) (strip_metadata_keys stripKeys isRoot r)
  | _, .onil => .onil
  | _, .acons x r =>
    .acons (strip_metadata_keys stripKeys false x) (strip_metadata_keys stripKeys false r)
  | _, .anil => .anil
  | _, other => other

/-- Specification helper: no object anywhere in the tree has a key
satisfying `p`. -/
def deepNoKeyP (p : Str → Bool) : JVal → Bool
  | .ocons k v r => !p k && deepNoKeyP p v && deepNoKeyP p r
  | .acons x r => deepNoKeyP p x && deepNoKeyP p r
  | _ => true

/-- Specification helper: every value of a (root) object satisfies
`deepNoKeyP p`; the root object's own keys are not inspected. -/
def valuesNoKeyP (p : Str → Bool) : JVal → Bool
  | .ocons _ v r => deepNoKeyP p v && valuesNoKeyP p r
  | _ => true

/-!  ## allOf flattening (resolve_schema.py lines 327–358)  -/

/-- The allOf-merging fold of `flatten_allof`: `merged = deep_merge(merged,
entry)` for each dict entry of the (already recursively flattened) allOf
array; non-dict entries are skipped. -/
def allofFold (merged : JVal) : JVal → JVal
  | .acons e r =>
    if isObj e then allofFold (deep_merge merged e) r else allofFold merged r
  | _ => merged

/-- `flatten_allof(schema)` with a mode flag replacing the source's
two-phase body: `top = true` is the function proper (recurse into all
children first, then pop and fold an `allOf` key of the current object);
`top = false` walks the remaining entries/elements of the same object or
array spine (whose `allOf` handling was already decided at the spine's
head).  `oneOf`/`anyOf` keys receive no special treatment. -/
def flattenM : Bool → JVal → JVal
  | true, .ocons k v r =>
    let result := .ocons k (flattenM true v) (flattenM false r)
    match dictGet result (cs "allOf") with
    | some allOfVal => allofFold (removeKey result (cs "allOf")) allOfVal
    | none => result
  | false, .ocons k v r => .ocons k (flattenM true v) (flattenM false r)
  | _, .acons x r => .acons (flattenM true x) (flattenM false r)
  | _, .onil => .onil
  | _, .anil => .anil
  | _, other => other

/-- `flatten_allof(schema)`. -/
def flatten_allof (schema : JVal) : JVal := flattenM true schema

/-!  ## JSON Pointer resolution (resolve_schema.py lines 68–79)  -/

/-- Fragment-resolution failures: `KeyError` (caught by the callers of
`resolve_fragment`), `ValueError` (raised by `int(part)` on a non-numeric
segment) and `IndexError` (raised by out-of-range list indexing); the
latter two are caught nowhere in the source. -/
inductive FErr where
  | key : Str → FErr
  | val : Str → FErr
  | idx : FErr
deriving DecidableEq, Repr

/-- Python `int(s)` on a stripped decimal literal: an optional sign
followed by a non-empty digit string (whitespace/underscore acceptance of
the builtin is irrelevant to pointer segments and not modelled). -/
def pyInt (s : Str) : Option Int :=
  let digits : Str → Option Int := fun ds =>
    if ds ≠ [] && ds.all Char.isDigit then
      some (Int.ofNat (ds.foldl (fun a c => a * 10 + (c.toNat - '0'.toNat)) 0))
    else none
  match s with
  | '+' :: ds => digits ds
  | '-' :: ds => (digits ds).map Int.neg
  | ds => digits ds

/-- Length of an array spine (`len(current)`). -/
def arrLen : JVal → Nat
  | .acons _ r => arrLen r + 1
  | _ => 0

/-- Zero-based element access on an array spine. -/
def arrNth : JVal → Nat → Option JVal
  | .acons x _, 0 => some x
  | .acons _ r, n+1 => arrNth r n
  | _, _ => none

/-- Python list indexing `current[i]` including negative indices
(`-1` is the last element); `none` is an `IndexError`. -/
def pyIndex (a : JVal) (i : Int) : Option JVal :=
  if 0 ≤ i then arrNth a i.toNat
  else if (-i).toNat ≤ arrLen a then arrNth a (arrLen a - (-i).toNat)
  else none

/-- Is this value a Python `list`? -/
def isArr : JVal → Bool
  | .anil | .acons _ _ => true
  | _ => false

/-- The descent loop of `resolve_fragment`: `parts` is the full segment
list (used in the `KeyError` message), the second list argument the
remaining segments.  A dict with the segment present descends; otherwise
a list converts the segment with `int()` (`ValueError` on failure) and
indexes (`IndexError` when out of range); everything else raises
`KeyError`. -/
def fragWalk (parts : List Str) : JVal → List Str → Except FErr JVal
  | cur, [] => .ok cur
  | cur, p :: rest =>
    match dictGet cur p with
    | some v => fragWalk parts v rest
    | none =>
      if isArr cur then
        match pyInt p with
        | none => .error (.val p)
        | some i =>
          match pyIndex cur i with
          | some v => fragWalk parts v rest
          | none => .error .idx
      else
        .error (.key (cs "Cannot resolve pointer /" ++ joinSlash parts ++
          cs " at part '" ++ p ++ cs "'"))

/-- `resolve_fragment(schema, pointer)`:
`parts = pointer.lstrip("/").split("/")`, then descend. -/
def resolve_fragment (schema : JVal) (pointer : Str) : Except FErr JVal :=
  let parts := splitOnChar '/' (pointer.dropWhile (· = '/'))
  fragWalk parts schema parts

/-!  ## Core resolution (resolve_schema.py lines 169–320, 464–501)

The local filesystem: canonical paths map to parsed documents
(`load_schema_file` composed with `Path.resolve()`), `join` is
`(base_dir / file_part).resolve()` and `parentDir` is `path.parent`.  All
paths handed around below are canonical, so the `path.resolve()` at the
top of `resolve_file` is the identity.  -/

structure FS where
  files : List (Str × JVal)
  join : Str → Str → Str
  parentDir : Str → Str

/-- File lookup; `none` both for the `file_path.exists()` test and for the
`FileNotFoundError` that `open` would raise. -/
def FS.load (fs : FS) (p : Str) : Option JVal := List.lookup p fs.files

/-- Resolver outcomes other than a value: `.fuel` is exhaustion of the
embedding's recursion budget; the others are uncaught Python exceptions
(`ValueError`, `IndexError`, `FileNotFoundError`, `AttributeError`). -/
inductive RErr where
  | fuel : RErr
  | val : Str → RErr
  | idx : RErr
  | file : Str → RErr
  | attr : RErr
deriving DecidableEq, Repr

instance {ε α : Type} [DecidableEq ε] [DecidableEq α] : DecidableEq (Except ε α) := fun a b =>
  match a, b with
  | .ok x, .ok y =>
    match decEq x y with
    | isTrue h => isTrue (by rw [h])
    | isFalse h => isFalse (by intro hh; cases hh; exact h rfl)
  | .error x, .error y =>
    match decEq x y with
    | isTrue h => isTrue (by rw [h])
    | isFalse h => isFalse (by intro hh; cases hh; exact h rfl)
  | .ok _, .error _ => isFalse (by intro hh; cases hh)
  | .error _, .ok _ => isFalse (by intro hh; cases hh)

/-- A diagnostic placeholder `{"$comment": s}`. -/
def comment (s : Str) : JVal := .ocons (cs "$comment") (.jstr s) .onil

/-- The cycle marker `{"$comment": f"circular ref to {canonical}"}`. -/
def cycleMarker (path : Str) : JVal := comment (cs "circular ref to " ++ path)

/-- The pass-1 placeholder `{"$comment": f"unresolved fragment ref: {ref}"}`. -/
def unresolvedPH (ref : Str) : JVal := comment (cs "unresolved fragment ref: " ++ ref)

/-- `resolved.pop("$defs", None)` guarded by `isinstance(resolved, dict)`. -/
def popDefs (v : JVal) : JVal := if isObj v then removeKey v (cs "$defs") else v

/-- Python truthiness of the fragment (`bool(fragment)` /
`if fragment:`): present and non-empty. -/
def fragTruthy : Option Str → Bool
  | some f => !f.isEmpty
  | none => false

/-- The call states of the resolver's mutual recursion.  `node`/`nodeObj`
are `resolve_node` (the latter walking the remaining entries of a dict
whose `$ref`-check already happened), `ref` is `_resolve_ref` (with
`_resolve_bblocks_ref` inlined in its `bblocks:` branch, which changes
nothing observable), `file` is `resolve_file`, `inline`/`inlBody`/`inlObj`
are `_inline_unresolved_defs` (placeholder check, `$ref` check + child
walk, and dict-spine walk), and `defsP1`/`defsP2` are the two passes over
`$defs` inside `resolve_file`. -/
inductive Call where
  | node (nd : JVal) (baseDir : Str) (defs : JVal) (seen : List Str)
  | nodeObj (spine : JVal) (baseDir : Str) (defs : JVal) (seen : List Str)
  | ref (r : Str) (baseDir : Str) (defs : JVal) (seen : List Str)
  | file (path : Str) (seen : List Str) (keepDefs : Bool)
  | inline (nd : JVal) (defs : JVal) (baseDir : Str) (seen : List Str)
  | inlBody (nd : JVal) (defs : JVal) (baseDir : Str) (seen : List Str)
  | inlObj (spine : JVal) (defs : JVal) (baseDir : Str) (seen : List Str)
  | defsP1 (spine : JVal) (baseDir : Str) (seen : List Str)
  | defsP2 (names : List Str) (defs : JVal) (baseDir : Str) (seen : List Str)

/-- The fuel-indexed interpreter of the resolver's mutual recursion.  Each
dispatch costs one unit of fuel; running out yields `.error .fuel`.  The
filesystem `fs` and the bblocks identifier index `idx` are threaded
unchanged through every source function, so they appear here as fixed
parameters. -/
def run (fs : FS) (idx : List (Str × Str)) : Nat → Call → Except RErr JVal
  | 0, _ => .error .fuel
  | n+1, c =>
    match c with
    | .node nd bd defs seen =>
      if isObj nd then
        match dictGet nd (cs "$ref") with
        | some (.jstr ref) =>
          match run fs idx n (.ref ref bd defs seen) with
          | .error e => .error e
          | .ok resolved =>
            let sib := removeKey nd (cs "$ref")
            if sib = .onil then .ok resolved
            else
              match run fs idx n (.node sib bd defs seen) with
              | .error e => .error e
              | .ok sres =>
                if isObj resolved then .ok (deep_merge resolved sres) else .ok resolved
        | some _ => .error .attr
        | none => run fs idx n (.nodeObj nd bd defs seen)
      else
        match nd with
        | .acons x r =>
          match run fs idx n (.node x bd defs seen) with
          | .error e => .error e
          | .ok xr =>
            match run fs idx n (.node r bd defs seen) with
            | .error e => .error e
            | .ok rr => .ok (.acons xr rr)
        | other => .ok other
    | .nodeObj nd bd defs seen =>
      match nd with
      | .ocons k v r =>
        match run fs idx n (.node v bd defs seen) with
        | .error e => .error e
        | .ok vr =>
          match run fs idx n (.nodeObj r bd defs seen) with
          | .error e => .error e
          | .ok rr => .ok (.ocons k vr rr)
      | other => .ok other
    | .ref ref bd defs seen =>
      if (cs "#/").isPrefixOf ref then
        let pointer := ref.drop 1
        match splitOnChar '/' (pointer.dropWhile (· = '/')) with
        | [p0, p1] =>
          if p0 = cs "$defs" then
            match dictGet defs p1 with
            | some v => .ok v
            | none => .ok (unresolvedPH ref)
          else .ok (unresolvedPH ref)
        | _ => .ok (unresolvedPH ref)
      else if (cs "bblocks:").isPrefixOf ref then
        if idx = [] then .ok (comment (cs "bblocks ref (no index available): " ++ ref))
        else
          let remainder := if (cs "bblocks://").isPrefixOf ref then ref.drop 10 else ref.drop 8
          let (identifier, frag) := splitHash remainder
          match List.lookup identifier idx with
          | none => .ok (comment (cs "bblocks ref not found in local index: " ++ ref))
          | some path =>
            match run fs idx n (.file path seen (fragTruthy frag)) with
            | .error e => .error e
            | .ok resolved =>
              match frag with
              | some f =>
                if f.isEmpty then .ok resolved
                else
                  match resolve_fragment resolved f with
                  | .error (.key e) =>
                    .ok (comment (cs "could not resolve fragment " ++ f ++ cs " in " ++
                      ref ++ cs ": " ++ e))
                  | .error (.val s) => .error (.val s)
                  | .error .idx => .error .idx
                  | .ok fv =>
                    match run fs idx n (.node fv (fs.parentDir path) .onil seen) with
                    | .error e => .error e
                    | .ok r2 => .ok (popDefs r2)
              | none => .ok resolved
      else
        let (filePart, frag) := splitHash ref
        let filePath := fs.join bd filePart
        match FS.load fs filePath with
        | none => .ok (comment (cs "file not found: " ++ filePath))
        | some _ =>
          match run fs idx n (.file filePath seen (fragTruthy frag)) with
          | .error e => .error e
          | .ok resolved =>
            match frag with
            | some f =>
              if f.isEmpty then .ok resolved
              else
                match resolve_fragment resolved f with
                | .error (.key e) =>
                  .ok (comment (cs "could not resolve fragment " ++ f ++ cs " in " ++
                    filePath ++ cs ": " ++ e))
                | .error (.val s) => .error (.val s)
                | .error .idx => .error .idx
                | .ok fv =>
                  match run fs idx n (.node fv (fs.parentDir filePath) .onil seen) with
                  | .error e => .error e
                  | .ok r2 => .ok (popDefs r2)
            | none => .ok resolved
    | .file path seen keepDefs =>
      if seen.contains path then .ok (cycleMarker path)
      else
        match FS.load fs path with
        | none => .error (.file path)
        | some schema =>
          if isObj schema then
            let seen' := path :: seen
            let bd := fs.parentDir path
            match dictGet schema (cs "$defs") with
            | some rawDefs =>
              if isObj rawDefs then
                match run fs idx n (.defsP1 rawDefs bd seen') with
                | .error e => .error e
                | .ok p1 =>
                  match run fs idx n (.defsP2 (keysOf p1) p1 bd seen') with
                  | .error e => .error e
                  | .ok defs =>
                    match run fs idx n (.node schema bd defs seen') with
                    | .error e => .error e
                    | .ok resolved => .ok (if keepDefs then resolved else popDefs resolved)
              else .error .attr
            | none =>
              match run fs idx n (.node schema bd .onil seen') with
              | .error e => .error e
              | .ok resolved => .ok (if keepDefs then resolved else popDefs resolved)
          else .ok schema
    | .inline nd defs bd seen =>
      match nd with
      | .ocons k cv .onil =>
        if k = cs "$comment" then
          match cv with
          | .jstr s =>
            if (cs "unresolved fragment ref: #/$defs/").isPrefixOf s then
              match dictGet defs ((splitOnChar '/' s).getLastD []) with
              | some dv => .ok dv
              | none => run fs idx n (.inlBody nd defs bd seen)
            else run fs idx n (.inlBody nd defs bd seen)
          | _ => .error .attr
        else run fs idx n (.inlBody nd defs bd seen)
      | _ => run fs idx n (.inlBody nd defs bd seen)
    | .inlBody nd defs bd seen =>
      if isObj nd then
        match dictGet nd (cs "$ref") with
        | some (.jstr ref) =>
          match run fs idx n (.ref ref bd defs seen) with
          | .error e => .error e
          | .ok resolved =>
            let sib := removeKey nd (cs "$ref")
            if sib = .onil then .ok resolved
            else
              match run fs idx n (.inline sib defs bd seen) with
              | .error e => .error e
              | .ok sres =>
                if isObj resolved then .ok (deep_merge resolved sres) else .ok resolved
        | some _ => .error .attr
        | none => run fs idx n (.inlObj nd defs bd seen)
      else
        match nd with
        | .acons x r =>
          match run fs idx n (.inline x defs bd seen) with
          | .error e => .error e
          | .ok xr =>
            match run fs idx n (.inline r defs bd seen) with
            | .error e => .error e
            | .ok rr => .ok (.acons xr rr)
        | other => .ok other
    | .inlObj nd defs bd seen =>
      match nd with
      | .ocons k v r =>
        match run fs idx n (.inline v defs bd seen) with
        | .error e => .error e
        | .ok vr =>
          match run fs idx n (.inlObj r defs bd seen) with
          | .error e => .error e
          | .ok rr => .ok (.ocons k vr rr)
      | other => .ok other
    | .defsP1 spine bd seen =>
      match spine with
      | .ocons name dschema r =>
        match run fs idx n (.node dschema bd .onil seen) with
        | .error e => .error e
        | .ok dres =>
          match run fs idx n (.defsP1 r bd seen) with
          | .error e => .error e
          | .ok rr => .ok (.ocons name dres rr)
      | other => .ok other
    | .defsP2 names defs bd seen =>
      match names with
      | [] => .ok defs
      | nm :: rest =>
        match dictGet defs nm with
        | none => run fs idx n (.defsP2 rest defs bd seen)
        | some dv =>
          match run fs idx n (.inline dv defs bd seen) with
          | .error e => .error e
          | .ok dv' => run fs idx n (.defsP2 rest (dictSet defs nm dv') bd seen)

/-- `resolve_file(path, seen, bblock_index, keep_defs)`. -/
def resolve_file (fs : FS) (idx : List (Str × Str)) (fuel : Nat)
    (path : Str) (seen : List Str) (keepDefs : Bool) : Except RErr JVal :=
  run fs idx fuel (.file path seen keepDefs)

/-- `resolve_node(node, base_dir, defs, seen, bblock_index)`. -/
def resolve_node (fs : FS) (idx : List (Str × Str)) (fuel : Nat)
    (nd : JVal) (bd : Str) (defs : JVal) (seen : List Str) : Except RErr JVal :=
  run fs idx fuel (.node nd bd defs seen)

/-!  ## A heap model of `deep_merge` (for its frame/non-mutation property)

`deep_merge` is implemented with in-place dict assignment on
`result = copy.deepcopy(base)` and `copy.deepcopy` of every overlay value.
To state that the function mutates neither argument and returns a fresh
dict, the Python object graph is modelled explicitly: a heap maps
addresses to boxed objects (dicts and lists hold addresses of their
children), allocation hands out `nxt` and bumps it, and
`_deep_merge_inner` is re-embedded as `hrun` operating on addresses with
explicit `deepcopy` and in-place field assignment. -/

/-- Scalar (immutable) Python values. -/
inductive HPrim where
  | hstr : Str → HPrim
  | hint : Int → HPrim
  | hbool : Bool → HPrim
  | hnull : HPrim
deriving DecidableEq, Repr

/-- A boxed Python object: a dict of named child addresses, a list of
child addresses, or a scalar. -/
inductive HObj where
  | dict : List (Str × Nat) → HObj
  | arr : List Nat → HObj
  | prim : HPrim → HObj
deriving DecidableEq, Repr

/-- Addresses reachable in one step from an object. -/
def childAddrs : HObj → List Nat
  | .dict f => f.map (·.2)
  | .arr l => l
  | .prim _ => []

/-- Replace the binding of `a` in an association list (append if new). -/
def assocSet : List (Nat × HObj) → Nat → HObj → List (Nat × HObj)
  | [], a, o => [(a, o)]
  | (b, p) :: r, a, o => if b = a then (a, o) :: r else (b, p) :: assocSet r a o

/-- The heap: an address-to-object store plus the next fresh address. -/
structure Heap where
  mem : List (Nat × HObj)
  nxt : Nat
deriving DecidableEq, Repr

/-- Dereference an address. -/
def Heap.get (h : Heap) (a : Nat) : Option HObj := List.lookup a h.mem

/-- In-place update of the object at an (existing) address. -/
def Heap.set (h : Heap) (a : Nat) (o : HObj) : Heap := ⟨assocSet h.mem a o, h.nxt⟩

/-- Allocate a fresh object, returning its address. -/
def Heap.alloc (h : Heap) (o : HObj) : Nat × Heap :=
  (h.nxt, ⟨(h.nxt, o) :: h.mem, h.nxt + 1⟩)

/-- Well-formedness: every stored address and every child address is below
`nxt` (decidable so concrete heaps can be checked by evaluation). -/
def Heap.wfb (h : Heap) : Bool :=
  h.mem.all (fun e => decide (e.1 < h.nxt) && (childAddrs e.2).all (· < h.nxt))

/-- Readback call states: one address, a list of element addresses, or a
list of field addresses. -/
inductive RCall where
  | val (a : Nat)
  | arrL (l : List Nat)
  | objL (l : List (Str × Nat))

/-- Scalar conversion for readback. -/
def primToJVal : HPrim → JVal
  | .hstr s => .jstr s
  | .hint i => .jint i
  | .hbool b => .jbool b
  | .hnull => .jnull

/-- Read the value of an object graph back into a pure `JVal` (fuel-
bounded; `none` on dangling addresses or insufficient fuel). -/
def readRun : Nat → Heap → RCall → Option JVal
  | 0, _, _ => none
  | n+1, h, .val a =>
    match h.get a with
    | some (.prim p) => some (primToJVal p)
    | some (.arr l) => readRun n h (.arrL l)
    | some (.dict l) => readRun n h (.objL l)
    | none => none
  | _+1, _, .arrL [] => some .anil
  | n+1, h, .arrL (a :: r) =>
    match readRun n h (.val a), readRun n h (.arrL r) with
    | some x, some xs => some (.acons x xs)
    | _, _ => none
  | _+1, _, .objL [] => some .onil
  | n+1, h, .objL ((k, a) :: r) =>
    match readRun n h (.val a), readRun n h (.objL r) with
    | some v, some vs => some (.ocons k v vs)
    | _, _ => none

/-- Write a pure `JVal` into the heap as an all-fresh object graph,
returning the root address.  A spine's tail is written as its own
(immediately garbage) collection object whose element list is then
consed onto — extra fresh allocations change nothing observable. -/
def writeVal : JVal → Heap → Nat × Heap
  | .jstr s, h => h.alloc (.prim (.hstr s))
  | .jint i, h => h.alloc (.prim (.hint i))
  | .jbool b, h => h.alloc (.prim (.hbool b))
  | .jnull, h => h.alloc (.prim .hnull)
  | .anil, h => h.alloc (.arr [])
  | .acons x t, h =>
    let r1 := writeVal x h
    let r2 := writeVal t r1.2
    match r2.2.get r2.1 with
    | some (.arr rest) => r2.2.alloc (.arr (r1.1 :: rest))
    | _ => r2.2.alloc (.arr [r1.1])
  | .onil, h => h.alloc (.dict [])
  | .ocons k v t, h =>
    let r1 := writeVal v h
    let r2 := writeVal t r1.2
    match r2.2.get r2.1 with
    | some (.dict rest) => r2.2.alloc (.dict ((k, r1.1) :: rest))
    | _ => r2.2.alloc (.dict [(k, r1.1)])

/-- `copy.deepcopy(a)`: read the object graph back and write it out as an
all-fresh copy.  The acyclic object graphs `deep_merge` operates on make
this equivalent to Python's memo-based deep copy. -/
def deepcopy (fuel : Nat) (a : Nat) (h : Heap) : Option (Nat × Heap) :=
  match readRun fuel h (.val a) with
  | none => none
  | some jv => some (writeVal jv h)

/-- `_is_complete_schema` on a heap dict's fields. -/
def hIsComplete (f : List (Str × Nat)) : Bool :=
  f.any (fun kv => SCHEMA_DEF_KEYS.contains kv.1)

/-- Replace the binding of key `k` in a dict's field list (append if
new), i.e. Python's `result[k] = v`. -/
def fieldSet : List (Str × Nat) → Str → Nat → List (Str × Nat)
  | [], k, a => [(k, a)]
  | (k0, a0) :: r, k, a => if k0 = k then (k, a) :: r else (k0, a0) :: fieldSet r k a

/-- In-place `result[k] = v` on the dict object at address `res`. -/
def setField (h : Heap) (res : Nat) (k : Str) (a : Nat) : Heap :=
  match h.get res with
  | some (.dict f) => h.set res (.dict (fieldSet f k a))
  | _ => h

/-- Call states of the heap-level `_deep_merge_inner`: the function entry
(`result = copy.deepcopy(base)` followed by the overlay loop), the loop
over the remaining overlay items, and one `result[k] = ...` step of that
loop (which returns `res` unchanged alongside the updated heap). -/
inductive MCall where
  | merge (b o : Nat) (inProps : Bool)
  | loop (items : List (Str × Nat)) (res : Nat) (inProps : Bool)
  | stepc (k : Str) (va : Nat) (res : Nat) (inProps : Bool)

/-- Heap-level `_deep_merge_inner`: `.merge b o ip` deep-copies `base`
into a fresh `result` and folds the overlay's items into it in place;
`.loop` runs one `.stepc` per item, and `.stepc` performs a single
`result[k] = ...` assignment, exactly following the source's branch
structure.  `none` covers both fuel exhaustion and the type errors
Python would raise on non-dict arguments. -/
def hrun : Nat → MCall → Heap → Option (Nat × Heap)
  | 0, _, _ => none
  | n+1, .merge b o ip, h =>
    match deepcopy (n+1) b h with
    | none => none
    | some rh =>
      match rh.2.get o with
      | some (.dict items) => hrun n (.loop items rh.1 ip) rh.2
      | _ => none
  | _+1, .loop [] res _, h => some (res, h)
  | n+1, .loop ((k, va) :: rest) res ip, h =>
    match hrun n (.stepc k va res ip) h with
    | none => none
    | some rh => hrun n (.loop rest res ip) rh.2
  | n+1, .stepc k va res ip, h =>
    match h.get res with
    | some (.dict rf) =>
      match List.lookup k rf with
      | some ra =>
        match h.get ra, h.get va with
        | some (.dict _), some (.dict vf) =>
          if ip && hIsComplete vf then
            (deepcopy (n+1) va h).map (fun ch => (res, setField ch.2 res k ch.1))
          else
            (hrun n (.merge ra va (k = cs "properties")) h).map
              (fun mh => (res, setField mh.2 res k mh.1))
        | _, _ => (deepcopy (n+1) va h).map (fun ch => (res, setField ch.2 res k ch.1))
      | none => (deepcopy (n+1) va h).map (fun ch => (res, setField ch.2 res k ch.1))
    | _ => none

/-- Heap-level `deep_merge(base, overlay)`. -/
def hDeepMerge (fuel : Nat) (b o : Nat) (h : Heap) : Option (Nat × Heap) :=
  hrun fuel (.merge b o false) h

/-!  ## Specification-side helper predicates and concrete fixtures  -/

/-- No `$ref` key anywhere in the tree. -/
def noRefB (v : JVal) : Bool := deepNoKeyP (fun k => k == cs "$ref") v

/-- Does the tree contain a pass-1 `unresolved fragment ref:` placeholder
(an object entry `$comment ↦ "unresolved fragment ref: ..."`)? -/
def hasUnresolvedPH : JVal → Bool
  | .ocons k v r =>
    (k = cs "$comment" &&
      (match v with
       | .jstr s => (cs "unresolved fragment ref:").isPrefixOf s
       | _ => false)) || hasUnresolvedPH v || hasUnresolvedPH r
  | .acons x r => hasUnresolvedPH x || hasUnresolvedPH r
  | _ => false

/-- Every `allOf` key in the tree carries a list value (on other values
Python's `for entry in all_of` would raise `TypeError`; the theorems about
`flatten_allof` restrict to this well-formed case). -/
def wfAllofB : JVal → Bool
  | .ocons k v r => (!(k = cs "allOf") || isArr v) && wfAllofB v && wfAllofB r
  | .acons x r => wfAllofB x && wfAllofB r
  | _ => true

/-- Every object in the tree has pairwise-distinct keys (always true of
values parsed from YAML/JSON into Python dicts). -/
def nodupKeysB : JVal → Bool
  | .ocons k v r => !hasKey r k && nodupKeysB v && nodupKeysB r
  | .acons x r => nodupKeysB x && nodupKeysB r
  | _ => true

/-- The local-fragment lookup performed by `_resolve_ref` on a `#/`-ref:
`some` of the definition exactly when the pointer splits as
`["$defs", name]` with `name` bound in the local defs table. -/
def localRefShape (ref : Str) (defs : JVal) : Option JVal :=
  match splitOnChar '/' ((ref.drop 1).dropWhile (· = '/')) with
  | [p0, p1] => if p0 = cs "$defs" then dictGet defs p1 else none
  | _ => none

/-- The values `JVal` can encode but a Python dict/list cannot: spines
whose tail is not a spine of the same kind, and dicts with duplicate
keys.  `pyWF` holds of every value parsed from YAML/JSON. -/
def pyWF : JVal → Bool
  | .ocons k v r => !hasKey r k && pyWF v && pyWF r && isObj r
  | .acons x r => pyWF x && pyWF r && isArr r
  | _ => true

/-- The keys of the top-level object are pairwise distinct. -/
def topNodupB : JVal → Bool
  | .ocons k _ r => !hasKey r k && topNodupB r
  | _ => true

/-- Did fragment resolution fail with a (caught) `KeyError`? -/
def isKeyErr : Except FErr JVal → Bool
  | .error (.key _) => true
  | _ => false

/-- A filesystem fixture over flat canonical names: `join` ignores the
base directory (every `$ref` in the fixtures is already canonical). -/
def mkFS (files : List (Str × JVal)) : FS :=
  { files := files, join := fun _ rel => rel, parentDir := fun _ => cs "" }

/-- `{"$ref": p}`. -/
def refTo (p : String) : JVal := jobj [(cs "$ref", .jstr (cs p))]

/-- Diamond fixture: `root` references `a` twice, `a` references `b`. -/
def fsD : FS := mkFS
  [ (cs "root", jobj [(cs "p", refTo "a"), (cs "q", refTo "a")]),
    (cs "a", jobj [(cs "t", refTo "b")]),
    (cs "b", jobj [(cs "type", .jstr (cs "string"))]) ]

/-- Indirect-cycle fixture: `rootC → ca → cb → ca`. -/
def fsC : FS := mkFS
  [ (cs "rootC", jobj [(cs "x", refTo "ca")]),
    (cs "ca", jobj [(cs "y", refTo "cb")]),
    (cs "cb", jobj [(cs "z", refTo "ca")]) ]

/-- Mutually recursive local definitions: `X` and `Y` each reference the
other through `#/$defs/...`. -/
def fsM : FS := mkFS
  [ (cs "m", jobj
      [ (cs "a", refTo "#/$defs/X"),
        (cs "$defs", jobj
          [ (cs "X", jobj [(cs "type", .jstr (cs "object")),
              (cs "properties", jobj [(cs "y", refTo "#/$defs/Y")])]),
            (cs "Y", jobj [(cs "type", .jstr (cs "object")),
              (cs "properties", jobj [(cs "x", refTo "#/$defs/X")])]) ]) ]) ]

/-- The resolver's output on the mutual-definitions fixture. -/
def outM : Except RErr JVal := run fsM [] 30 (.file (cs "m") [] false)

/-- Acyclic local definitions: `X` forward-references `Y`, `Y` references
nothing. -/
def fsA2 : FS := mkFS
  [ (cs "m2", jobj
      [ (cs "a", refTo "#/$defs/X"),
        (cs "b", refTo "#/$defs/Y"),
        (cs "$defs", jobj
          [ (cs "X", jobj [(cs "type", .jstr (cs "object")),
              (cs "properties", jobj [(cs "y", refTo "#/$defs/Y")])]),
            (cs "Y", jobj [(cs "type", .jstr (cs "string"))]) ]) ]) ]

/-- Fragment-failure fixtures: `arr` holds a one-element list under
`items`; `pa` uses a non-numeric index, `pb` an out-of-range index, `pc` a
missing key. -/
def fsP : FS := mkFS
  [ (cs "pa", jobj [(cs "bad", refTo "arr#/items/zzz")]),
    (cs "pb", jobj [(cs "bad", refTo "arr#/items/5")]),
    (cs "pc", jobj [(cs "ok", refTo "arr#/nope")]),
    (cs "arr", jobj [(cs "items", jarr [jobj [(cs "type", .jstr (cs "string"))]])]) ]

/-- A `$ref`-free document that carries a (non-empty) `$defs` map. -/
def peDoc : JVal :=
  jobj [(cs "$defs", jobj [(cs "K", jobj [(cs "type", .jstr (cs "string"))])]),
    (cs "type", .jstr (cs "object"))]

def fsE : FS := mkFS [ (cs "pe", peDoc) ]

/-- A `$ref`-free, `$defs`-free document (identity witness). -/
def wDoc : JVal := jobj [(cs "title", .jstr (cs "w")), (cs "type", .jstr (cs "string"))]

def fsW : FS := mkFS [ (cs "w", wDoc) ]

/-- Parity fixtures: the identifier `a.b` maps to `p7` (no `$defs`, so
fragment lookups fail with `KeyError`); `a.c` maps to `p8` (which has a
`$defs.T` the fragment can reach). -/
def fs7 : FS := mkFS [ (cs "p7", jobj [(cs "type", .jstr (cs "string"))]) ]

def idx7 : List (Str × Str) := [(cs "a.b", cs "p7")]

def fs8 : FS := mkFS
  [ (cs "p8", jobj [(cs "$defs", jobj [(cs "T", jobj [(cs "type", .jstr (cs "number"))])]),
      (cs "type", .jstr (cs "object"))]) ]

def idx8 : List (Str × Str) := [(cs "a.c", cs "p8")]

/-- A small well-formed heap: address 0 holds the dict `{"a": 1}` (via 1),
address 2 the dict `{"b": 7}` (via 3). -/
def demoHeap : Heap :=
  ⟨[(0, .dict [(cs "a", 1)]), (1, .prim (.hint 1)),
    (2, .dict [(cs "b", 3)]), (3, .prim (.hint 7))], 4⟩

/-- The heap-level merge of the two demo dicts. -/
def demoMerge : Option (Nat × Heap) := hDeepMerge 10 0 2 demoHeap

/-- The heap produced by `demoMerge`: the merged dict lives at the fresh
address 6, and the entries at the original addresses 0–3 are untouched. -/
def demoHeapOut : Heap :=
  ⟨[(7, .prim (.hint 7)), (6, .dict [(cs "a", 4), (cs "b", 7)]), (5, .dict []),
    (4, .prim (.hint 1)), (0, .dict [(cs "a", 1)]), (1, .prim (.hint 1)),
    (2, .dict [(cs "b", 3)]), (3, .prim (.hint 7))], 8⟩

/-- A well-formed dict spine: `ocons` chains ending in `onil` (the shape
of every Python dict in the embedding; `JVal` itself does not rule out
ill-formed spines). -/
def objSpineB : JVal → Bool
  | .ocons _ _ r => objSpineB r
  | .onil => true
  | _ => false

/-!  ## Basic lemmas about the dict operations  -/

theorem hasKey_false_dictGet {d : JVal} {k : Str} (h : hasKey d k = false) :
    dictGet d k = none := by
  induction d with
  | ocons k0 v r _ ihr =>
    simp only [hasKey, Bool.or_eq_false_iff, decide_eq_false_iff_not] at h
    simp only [dictGet, if_neg h.1]
    exact ihr h.2
  | _ => rfl

theorem removeKey_of_hasKey_false {d : JVal} {k : Str} (h : hasKey d k = false) :
    removeKey d k = d := by
  induction d with
  | ocons k0 v r _ ihr =>
    simp only [hasKey, Bool.or_eq_false_iff, decide_eq_false_iff_not] at h
    simp only [removeKey, if_neg h.1]
    rw [ihr h.2]
  | _ => rfl

/-!  ## C1, C2, C4: cycle detection, two-pass definitions, fragment errors  -/

/-- C1: if the canonical path is already in the in-progress set,
`resolve_file` returns the cycle-marker object without recursing into the
file (the equation holds for every filesystem, so the file's content is
never consulted); the in-progress set is a value threaded through the
recursion, so two sibling (diamond-shaped) references to the same file
both resolve against the caller's unchanged set — on the diamond fixture
both siblings come back fully resolved with no marker — while a genuine
indirect cycle (`rootC → ca → cb → ca`) yields the marker exactly where
the cycle closes. -/
theorem C1_cycle_and_diamond :
    (∀ (fs : FS) (idx : List (Str × Str)) (fuel : Nat) (path : Str) (seen : List Str)
      (keepDefs : Bool), seen.contains path = true →
      run fs idx (fuel + 1) (.file path seen keepDefs) = .ok (cycleMarker path))
    ∧ run fsD [] 20 (.file (cs "root") [] false)
        = .ok (jobj [(cs "p", jobj [(cs "t", jobj [(cs "type", .jstr (cs "string"))])]),
                     (cs "q", jobj [(cs "t", jobj [(cs "type", .jstr (cs "string"))])])])
    ∧ run fsC [] 20 (.file (cs "rootC") [] false)
        = .ok (jobj [(cs "x", jobj [(cs "y", jobj [(cs "z", cycleMarker (cs "ca"))])])]) := by
  refine ⟨?_, by decide, by decide⟩
  intro fs idx fuel path seen keepDefs h
  simp only [run, h, if_true]

theorem C1_cycle_and_diamond_witness :
    run fsD [] 7 (.file (cs "a") [cs "a"] false) = .ok (cycleMarker (cs "a")) :=
  C1_cycle_and_diamond.1 fsD [] 6 (cs "a") [cs "a"] false (by decide)

/-- C2 counterexample: on a file whose `$defs` contains two definitions
that each reference the other via `#/$defs/...`, the fully resolved
output of `resolve_file` still contains an `unresolved fragment ref:`
placeholder — pass 2 substitutes a definition's pass-1 form without
re-walking the substituted copy, so a cyclic definition can never be
inlined away. -/
theorem C2_two_pass_cex : outM.map hasUnresolvedPH = .ok true := by decide

/-- C2 (amended): the two-pass scheme is complete for acyclic local
definitions: with `X` forward-referencing `Y` and `Y` referencing nothing,
pass 1 leaves a placeholder inside `X` and pass 2 replaces it, so the
resolved output contains both definitions fully inlined and no
placeholder. -/
theorem C2_two_pass :
    run fsA2 [] 30 (.file (cs "m2") [] false)
      = .ok (jobj
        [ (cs "a", jobj [(cs "type", .jstr (cs "object")),
            (cs "properties", jobj [(cs "y", jobj [(cs "type", .jstr (cs "string"))])])]),
          (cs "b", jobj [(cs "type", .jstr (cs "string"))]) ])
    ∧ hasUnresolvedPH (jobj
        [ (cs "a", jobj [(cs "type", .jstr (cs "object")),
            (cs "properties", jobj [(cs "y", jobj [(cs "type", .jstr (cs "string"))])])]),
          (cs "b", jobj [(cs "type", .jstr (cs "string"))]) ]) = false :=
  ⟨by decide, by decide⟩

/-- C4: a failing JSON-Pointer segment only yields a diagnostic
placeholder when it raises `KeyError` (missing dict key, fixture `pc`);
a non-numeric index on an array raises `ValueError` from `int()` (fixture
`pa`) and an out-of-range index raises `IndexError` (fixture `pb`), and
both propagate out of `resolve_file` uncaught — the callers catch only
`KeyError` — aborting the overall resolution. -/
theorem C4_array_index_aborts :
    run fsP [] 20 (.file (cs "pa") [] false) = .error (.val (cs "zzz"))
    ∧ run fsP [] 20 (.file (cs "pb") [] false) = .error .idx
    ∧ run fsP [] 20 (.file (cs "pc") [] false)
        = .ok (jobj [(cs "ok", comment (cs "could not resolve fragment /nope in arr: Cannot resolve pointer /nope at part 'nope'"))]) :=
  ⟨by decide, by decide, by decide⟩

/-!  ## C5: identity on `$ref`-free documents  -/

theorem noRef_hasKey {d : JVal} (h : noRefB d = true) : hasKey d (cs "$ref") = false := by
  induction d with
  | ocons k v r _ ihr =>
    simp only [noRefB, deepNoKeyP, Bool.and_eq_true, Bool.not_eq_true',
      beq_eq_false_iff_ne, ne_eq] at h
    simp only [noRefB] at ihr
    simp only [hasKey, Bool.or_eq_false_iff, decide_eq_false_iff_not]
    exact ⟨h.1.1, ihr h.2⟩
  | _ => rfl

theorem noRef_parts {k : Str} {v r : JVal} (h : noRefB (.ocons k v r) = true) :
    noRefB v = true ∧ noRefB r = true := by
  simp only [noRefB, deepNoKeyP, Bool.and_eq_true] at h ⊢
  exact ⟨h.1.2, h.2⟩

theorem noRef_partsArr {x r : JVal} (h : noRefB (.acons x r) = true) :
    noRefB x = true ∧ noRefB r = true := by
  simp only [noRefB, deepNoKeyP, Bool.and_eq_true] at h ⊢
  exact h

/-- `resolve_node` is the identity on `$ref`-free trees (up to fuel). -/
theorem run_node_id (fs : FS) (idx : List (Str × Str)) :
    ∀ fuel : Nat,
      (∀ nd bd defs seen, noRefB nd = true →
        run fs idx fuel (.node nd bd defs seen) = .error .fuel
        ∨ run fs idx fuel (.node nd bd defs seen) = .ok nd)
      ∧ (∀ nd bd defs seen, noRefB nd = true →
        run fs idx fuel (.nodeObj nd bd defs seen) = .error .fuel
        ∨ run fs idx fuel (.nodeObj nd bd defs seen) = .ok nd) := by
  intro fuel
  induction fuel with
  | zero => exact ⟨fun _ _ _ _ _ => Or.inl rfl, fun _ _ _ _ _ => Or.inl rfl⟩
  | succ n ih =>
    constructor
    · intro nd bd defs seen h
      cases nd with
      | ocons k v r =>
        have hg : dictGet (.ocons k v r) (cs "$ref") = none :=
          hasKey_false_dictGet (noRef_hasKey h)
        simp only [run, isObj, hg, if_true]
        exact ih.2 (.ocons k v r) bd defs seen h
      | onil =>
        simp only [run, isObj, dictGet, if_true]
        exact ih.2 .onil bd defs seen h
      | acons x r =>
        obtain ⟨hx, hr⟩ := noRef_partsArr h
        simp only [run, isObj, Bool.false_eq_true, if_false]
        rcases ih.1 x bd defs seen hx with h1 | h1 <;> rw [h1]
        · exact Or.inl rfl
        rcases ih.1 r bd defs seen hr with h2 | h2 <;> rw [h2]
        · exact Or.inl rfl
        exact Or.inr rfl
      | jstr s => exact Or.inr rfl
      | jint i => exact Or.inr rfl
      | jbool b => exact Or.inr rfl
      | jnull => exact Or.inr rfl
      | anil => exact Or.inr rfl
    · intro nd bd defs seen h
      cases nd with
      | ocons k v r =>
        obtain ⟨hv, hr⟩ := noRef_parts h
        simp only [run]
        rcases ih.1 v bd defs seen hv with h1 | h1 <;> rw [h1]
        · exact Or.inl rfl
        rcases ih.2 r bd defs seen hr with h2 | h2 <;> rw [h2]
        · exact Or.inl rfl
        exact Or.inr rfl
      | jstr s => exact Or.inr rfl
      | jint i => exact Or.inr rfl
      | jbool b => exact Or.inr rfl
      | jnull => exact Or.inr rfl
      | anil => exact Or.inr rfl
      | acons x r => exact Or.inr rfl
      | onil => exact Or.inr rfl

/-- C5 (amended): `resolve_file` is the identity on a document with no
`$ref` key anywhere **and no top-level `$defs` key** (metadata stripping
and allOf flattening are separate post-passes and are off here); the
original claim fails because `resolve_file` always pops a top-level
`$defs` from its output, see the counterexample. -/
theorem C5_identity (fs : FS) (idx : List (Str × Str)) (fuel : Nat) (path : Str)
    (seen : List Str) (doc : JVal) (hload : FS.load fs path = some doc)
    (hseen : seen.contains path = false) (href : noRefB doc = true)
    (hdefs : hasKey doc (cs "$defs") = false) :
    run fs idx fuel (.file path seen false) = .error .fuel
    ∨ run fs idx fuel (.file path seen false) = .ok doc := by
  cases fuel with
  | zero => exact Or.inl rfl
  | succ n =>
    simp only [run, hseen, hload, Bool.false_eq_true, if_false]
    cases hobj : isObj doc with
    | false => right; simp only [Bool.false_eq_true, if_false]
    | true =>
      simp only [if_true, hasKey_false_dictGet hdefs]
      rcases (run_node_id fs idx n).1 doc (fs.parentDir path) .onil (path :: seen) href
        with h1 | h1 <;> rw [h1]
      · exact Or.inl rfl
      right
      simp only [Bool.false_eq_true, if_false, popDefs, hobj, if_true,
        removeKey_of_hasKey_false hdefs]

theorem C5_identity_witness :
    run fsW [] 9 (.file (cs "w") [] false) = .error .fuel
    ∨ run fsW [] 9 (.file (cs "w") [] false) = .ok wDoc :=
  C5_identity fsW [] 9 (cs "w") [] wDoc (by decide) (by decide) (by decide) (by decide)

/-- C5 counterexample: `peDoc` contains no `$ref` anywhere, yet resolving
it returns the document **without** its `$defs` member, so the resolved
output differs from the input. -/
theorem C5_identity_cex :
    noRefB peDoc = true
    ∧ run fsE [] 20 (.file (cs "pe") [] false) = .ok (jobj [(cs "type", .jstr (cs "object"))])
    ∧ run fsE [] 20 (.file (cs "pe") [] false) ≠ .ok peDoc :=
  ⟨by decide, by decide, by decide⟩

/-!  ## C3: replace-vs-merge inside `properties`  -/

theorem hasKey_cons_false {k0 : Str} {v0 r : JVal} {k' : Str}
    (h : hasKey (.ocons k0 v0 r) k' = false) : k0 ≠ k' ∧ hasKey r k' = false := by
  simpa only [hasKey, Bool.or_eq_false_iff, decide_eq_false_iff_not] using h

theorem dictGet_dictSet_ne {d : JVal} {k k' : Str} (v : JVal) (h : k' ≠ k) :
    dictGet (dictSet d k v) k' = dictGet d k' := by
  have h' : ¬(k = k') := fun he => h (Eq.symm he)
  induction d with
  | ocons k0 v0 r _ ihr =>
    by_cases hk : k0 = k
    · subst hk; simp [dictSet, dictGet, h']
    · by_cases hk' : k0 = k' <;> simp [dictSet, dictGet, hk, hk', ihr, h]
  | onil => simp [dictSet, dictGet, h']
  | _ => rfl

theorem dictGet_dictSet_self {d : JVal} (hobj : objSpineB d = true) (k : Str) (v : JVal) :
    dictGet (dictSet d k v) k = some v := by
  induction d with
  | ocons k0 v0 r _ ihr =>
    by_cases hk : k0 = k
    · subst hk; simp [dictSet, dictGet]
    · simp [dictSet, dictGet, hk, ihr hobj]
  | onil => simp [dictSet, dictGet]
  | _ => exact (Bool.false_ne_true hobj).elim

theorem objSpineB_dictSet (d : JVal) (k : Str) (v : JVal) :
    objSpineB (dictSet d k v) = objSpineB d := by
  induction d with
  | ocons k0 v0 r _ ihr =>
    by_cases hk : k0 = k
    · subst hk; simp [dictSet, objSpineB]
    · simp [dictSet, objSpineB, hk, ihr]
  | onil => simp [dictSet, objSpineB]
  | _ => rfl

theorem hasKey_false_of_not_mem {d : JVal} {k : Str} (h : k ∉ keysOf d) :
    hasKey d k = false := by
  induction d with
  | ocons k0 v0 r _ ihr =>
    simp only [keysOf, List.mem_cons, not_or] at h
    simp only [hasKey, Bool.or_eq_false_iff, decide_eq_false_iff_not]
    exact ⟨fun he => h.1 (Eq.symm he), ihr h.2⟩
  | _ => rfl

theorem mergeInner_get_absent {overlay : JVal} :
    ∀ {base : JVal} {k' : Str} (ip : Bool), hasKey overlay k' = false →
      dictGet (deepMergeInner ip base overlay) k' = dictGet base k' := by
  induction overlay with
  | ocons k0 v0 rest _ ihr =>
    intro base k' ip h
    obtain ⟨hne, hrest⟩ := hasKey_cons_false h
    have hset : ∀ w : JVal, dictGet (dictSet base k0 w) k' = dictGet base k' :=
      fun w => dictGet_dictSet_ne w (fun he => hne (Eq.symm he))
    simp only [deepMergeInner]
    rw [ihr ip hrest]
    split <;> try split <;> try split
    all_goals exact hset _
  | jstr s => intro base k' ip h; rfl
  | jint i => intro base k' ip h; rfl
  | jbool b => intro base k' ip h; rfl
  | jnull => intro base k' ip h; rfl
  | anil => intro base k' ip h; rfl
  | acons x r _ _ => intro base k' ip h; rfl
  | onil => intro base k' ip h; rfl

theorem mergeInner_get {overlay : JVal} :
    ∀ {base : JVal} {k : Str} {vb vo : JVal} (ip : Bool),
      objSpineB base = true → (keysOf overlay).Nodup →
      dictGet overlay k = some vo → dictGet base k = some vb →
      isObj vb = true → isObj vo = true →
      dictGet (deepMergeInner ip base overlay) k =
        some (if (ip && isCompleteSchema vo) = true then vo
              else deepMergeInner (k = cs "properties") vb vo) := by
  induction overlay with
  | ocons k0 v0 rest _ ihr =>
    intro base k vb vo ip hsp hnd hov hb hvb hvo
    simp only [keysOf] at hnd
    by_cases hk : k0 = k
    · subst hk
      have hv0 : v0 = vo := by simpa [dictGet] using hov
      subst hv0
      have hnr : hasKey rest k0 = false :=
        hasKey_false_of_not_mem (List.nodup_cons.mp hnd).1
      simp only [deepMergeInner]
      rw [mergeInner_get_absent ip hnr]
      split
      · rename_i rb heq
        rw [hb] at heq
        injection heq with heq
        subst heq
        rw [if_pos (show (isObj vb && isObj v0) = true by rw [hvb, hvo]; rfl)]
        by_cases h2 : (ip && isCompleteSchema v0) = true
        · rw [if_pos h2, if_pos h2]; exact dictGet_dictSet_self hsp _ _
        · rw [if_neg h2, if_neg h2]; exact dictGet_dictSet_self hsp _ _
      · rename_i heq
        rw [hb] at heq
        exact Option.noConfusion heq
    · have hov' : dictGet rest k = some vo := by simpa [dictGet, hk] using hov
      have hkk : k ≠ k0 := fun he => hk (Eq.symm he)
      have hnd2 := (List.nodup_cons.mp hnd).2
      have H : ∀ w : JVal, objSpineB (dictSet base k0 w) = true := fun w => by
        rw [objSpineB_dictSet]; exact hsp
      have Hb : ∀ w : JVal, dictGet (dictSet base k0 w) k = some vb := fun w => by
        rw [dictGet_dictSet_ne _ hkk]; exact hb
      simp only [deepMergeInner]
      split
      · rename_i rb heq
        by_cases h1 : (isObj rb && isObj v0) = true
        · rw [if_pos h1]
          by_cases h2 : (ip && isCompleteSchema v0) = true
          · rw [if_pos h2]; exact ihr ip (H _) hnd2 hov' (Hb _) hvb hvo
          · rw [if_neg h2]; exact ihr ip (H _) hnd2 hov' (Hb _) hvb hvo
        · rw [if_neg h1]; exact ihr ip (H _) hnd2 hov' (Hb _) hvb hvo
      · exact ihr ip (H _) hnd2 hov' (Hb _) hvb hvo
  | jstr s => intro base k vb vo ip _ _ hov _ _ _; simp [dictGet] at hov
  | jint i => intro base k vb vo ip _ _ hov _ _ _; simp [dictGet] at hov
  | jbool b => intro base k vb vo ip _ _ hov _ _ _; simp [dictGet] at hov
  | jnull => intro base k vb vo ip _ _ hov _ _ _; simp [dictGet] at hov
  | anil => intro base k vb vo ip _ _ hov _ _ _; simp [dictGet] at hov
  | acons x r _ _ => intro base k vb vo ip _ _ hov _ _ _; simp [dictGet] at hov
  | onil => intro base k vb vo ip _ _ hov _ _ _; simp [dictGet] at hov

theorem notComplete_hasKey_type {d : JVal} (h : isCompleteSchema d = false) :
    hasKey d (cs "type") = false := by
  induction d with
  | ocons k0 v r _ ihr =>
    simp only [isCompleteSchema, Bool.or_eq_false_iff] at h
    simp only [hasKey, Bool.or_eq_false_iff, decide_eq_false_iff_not]
    refine ⟨fun he => ?_, ihr h.2⟩
    subst he
    exact absurd h.1 (by decide)
  | _ => rfl

/-- C3: in `deep_merge`, a key `"properties"` present in both sides with
dict values is merged with `in_properties=True` (first conjunct); at that
level, a key present in both sides with dict values is replaced wholesale
by the overlay's value when the overlay value `_is_complete_schema`
(second conjunct: the result is exactly the overlay value, so no base key
survives), and otherwise is merged recursively — preserving every base
key the overlay does not mention, in particular `"type"` (third
conjunct). -/
theorem C3_replace_vs_merge :
    (∀ base overlay pb po, objSpineB base = true → (keysOf overlay).Nodup →
      dictGet base (cs "properties") = some pb → dictGet overlay (cs "properties") = some po →
      isObj pb = true → isObj po = true →
      dictGet (deep_merge base overlay) (cs "properties")
        = some (deepMergeInner true pb po))
    ∧ (∀ pb po k vb vo, objSpineB pb = true → (keysOf po).Nodup →
        dictGet pb k = some vb → dictGet po k = some vo →
        isObj vb = true → isObj vo = true → isCompleteSchema vo = true →
        dictGet (deepMergeInner true pb po) k = some vo)
    ∧ (∀ pb po k vb vo, objSpineB pb = true → (keysOf po).Nodup →
        dictGet pb k = some vb → dictGet po k = some vo →
        isObj vb = true → isObj vo = true → isCompleteSchema vo = false →
        dictGet (deepMergeInner true pb po) k
          = some (deepMergeInner (k = cs "properties") vb vo)
        ∧ (∀ k', hasKey vo k' = false →
            dictGet (deepMergeInner (k = cs "properties") vb vo) k' = dictGet vb k')
        ∧ dictGet (deepMergeInner (k = cs "properties") vb vo) (cs "type")
            = dictGet vb (cs "type")) := by
  refine ⟨?_, ?_, ?_⟩
  · intro base overlay pb po hsp hnd hb ho hpb hpo
    have h := mergeInner_get false hsp hnd ho hb hpb hpo
    simpa using h
  · intro pb po k vb vo hsp hnd hb ho hvb hvo hc
    have h := mergeInner_get true hsp hnd ho hb hvb hvo
    rw [hc] at h
    simpa using h
  · intro pb po k vb vo hsp hnd hb ho hvb hvo hc
    have h := mergeInner_get true hsp hnd ho hb hvb hvo
    rw [hc] at h
    refine ⟨by simpa using h, fun k' hk' => mergeInner_get_absent _ hk', ?_⟩
    exact mergeInner_get_absent _ (notComplete_hasKey_type hc)

theorem C3_replace_vs_merge_witness :
    dictGet (deep_merge
        (jobj [(cs "properties", jobj [(cs "x", jobj [(cs "type", .jstr (cs "string"))])])])
        (jobj [(cs "properties", jobj [(cs "x", jobj [(cs "oneOf", jarr [.jnull])])])]))
      (cs "properties")
      = some (deepMergeInner true (jobj [(cs "x", jobj [(cs "type", .jstr (cs "string"))])])
          (jobj [(cs "x", jobj [(cs "oneOf", jarr [.jnull])])]))
    ∧ dictGet (deepMergeInner true (jobj [(cs "x", jobj [(cs "type", .jstr (cs "string"))])])
          (jobj [(cs "x", jobj [(cs "oneOf", jarr [.jnull])])])) (cs "x")
        = some (jobj [(cs "oneOf", jarr [.jnull])])
    ∧ dictGet (deepMergeInner (cs "x" = cs "properties")
          (jobj [(cs "type", .jstr (cs "string"))]) (jobj [(cs "minLength", .jint 3)]))
        (cs "type") = dictGet (jobj [(cs "type", .jstr (cs "string"))]) (cs "type") :=
  ⟨C3_replace_vs_merge.1
      (jobj [(cs "properties", jobj [(cs "x", jobj [(cs "type", .jstr (cs "string"))])])])
      (jobj [(cs "properties", jobj [(cs "x", jobj [(cs "oneOf", jarr [.jnull])])])])
      (jobj [(cs "x", jobj [(cs "type", .jstr (cs "string"))])])
      (jobj [(cs "x", jobj [(cs "oneOf", jarr [.jnull])])])
      (by decide) (by decide) (by decide) (by decide) (by decide) (by decide),
    C3_replace_vs_merge.2.1
      (jobj [(cs "x", jobj [(cs "type", .jstr (cs "string"))])])
      (jobj [(cs "x", jobj [(cs "oneOf", jarr [.jnull])])])
      (cs "x") (jobj [(cs "type", .jstr (cs "string"))]) (jobj [(cs "oneOf", jarr [.jnull])])
      (by decide) (by decide) (by decide) (by decide) (by decide) (by decide) (by decide),
    (C3_replace_vs_merge.2.2
      (jobj [(cs "x", jobj [(cs "type", .jstr (cs "string"))])])
      (jobj [(cs "x", jobj [(cs "minLength", .jint 3)])])
      (cs "x") (jobj [(cs "type", .jstr (cs "string"))]) (jobj [(cs "minLength", .jint 3)])
      (by decide) (by decide) (by decide) (by decide) (by decide) (by decide) (by decide)).2.2⟩

/-!  ## C10: metadata stripping  -/

theorem strip_no_xjsonld (ks : List Str) : ∀ (b : Bool) (v : JVal),
    deepNoKeyP (fun k => (cs "x-jsonld").isPrefixOf k) (strip_metadata_keys ks b v) = true := by
  intro b v
  induction v generalizing b with
  | ocons k w r ihw ihr =>
    simp only [strip_metadata_keys]
    split_ifs with h1 h2 h3
    · exact ihr b
    · exact ihr b
    · exact ihr b
    · simp only [deepNoKeyP, Bool.and_eq_true, Bool.not_eq_true']
      exact ⟨⟨Bool.eq_false_iff.mpr h2, ihw false⟩, ihr b⟩
  | acons x r ihx ihr =>
    simp only [strip_metadata_keys, deepNoKeyP, Bool.and_eq_true]
    exact ⟨ihx false, ihr false⟩
  | _ => rfl

theorem strip_no_schema_nonroot (ks : List Str) : ∀ v : JVal,
    deepNoKeyP (fun k => k == cs "$schema") (strip_metadata_keys ks false v) = true := by
  intro v
  induction v with
  | ocons k w r ihw ihr =>
    simp only [strip_metadata_keys]
    split_ifs with h1 h2 h3
    · exact ihr
    · exact ihr
    · exact ihr
    · simp only [deepNoKeyP, Bool.and_eq_true, Bool.not_eq_true', beq_eq_false_iff_ne, ne_eq]
      refine ⟨⟨fun he => h3 ?_, ihw⟩, ihr⟩
      simp [he]
  | acons x r ihx ihr =>
    simp only [strip_metadata_keys, deepNoKeyP, Bool.and_eq_true]
    exact ⟨ihx, ihr⟩
  | _ => rfl

theorem strip_schema_below_root (ks : List Str) : ∀ v : JVal,
    valuesNoKeyP (fun k => k == cs "$schema") (strip_metadata_keys ks true v) = true := by
  intro v
  induction v with
  | ocons k w r _ ihr =>
    simp only [strip_metadata_keys]
    split_ifs with h1 h2 h3
    · exact ihr
    · exact ihr
    · exact ihr
    · simp only [valuesNoKeyP, Bool.and_eq_true]
      exact ⟨strip_no_schema_nonroot ks w, ihr⟩
  | acons x r _ _ => rfl
  | _ => rfl

theorem strip_root_keeps_schema (ks : List Str) : ∀ (v s : JVal),
    ks.contains (cs "$schema") = false → dictGet v (cs "$schema") = some s →
    dictGet (strip_metadata_keys ks true v) (cs "$schema")
      = some (strip_metadata_keys ks false s) := by
  intro v
  induction v with
  | ocons k w r _ ihr =>
    intro s hks hget
    by_cases hk : k = cs "$schema"
    · subst hk
      have hw : w = s := by simpa [dictGet] using hget
      subst hw
      simp only [strip_metadata_keys]
      rw [if_neg (by simpa using hks), if_neg (by decide), if_neg (by simp)]
      simp [dictGet]
    · have hget' : dictGet r (cs "$schema") = some s := by simpa [dictGet, hk] using hget
      simp only [strip_metadata_keys]
      split_ifs with h1 h2 h3
      · exact ihr s hks hget'
      · exact ihr s hks hget'
      · exact ihr s hks hget'
      · simp only [dictGet, if_neg hk]
        exact ihr s hks hget'
  | jstr a => intro s _ hget; simp [dictGet] at hget
  | jint a => intro s _ hget; simp [dictGet] at hget
  | jbool a => intro s _ hget; simp [dictGet] at hget
  | jnull => intro s _ hget; simp [dictGet] at hget
  | anil => intro s _ hget; simp [dictGet] at hget
  | acons x r _ _ => intro s _ hget; simp [dictGet] at hget
  | onil => intro s _ hget; simp [dictGet] at hget

/-- C10: `strip_metadata_keys` removes every key beginning with
`"x-jsonld"` from every object of the tree for **every** strip-key set
(first conjunct); `"$schema"` is removed from every object when not at
the root (second conjunct) and from every nested object below a true root
(third conjunct), while at the true root it is kept (stripped recursively)
whenever the strip-key set itself does not list `"$schema"` (fourth
conjunct). -/
theorem C10_strip_metadata :
    (∀ (ks : List Str) (b : Bool) (v : JVal),
      deepNoKeyP (fun k => (cs "x-jsonld").isPrefixOf k) (strip_metadata_keys ks b v) = true)
    ∧ (∀ (ks : List Str) (v : JVal),
      deepNoKeyP (fun k => k == cs "$schema") (strip_metadata_keys ks false v) = true)
    ∧ (∀ (ks : List Str) (v : JVal),
      valuesNoKeyP (fun k => k == cs "$schema") (strip_metadata_keys ks true v) = true)
    ∧ (∀ (ks : List Str) (v s : JVal),
      ks.contains (cs "$schema") = false → dictGet v (cs "$schema") = some s →
      dictGet (strip_metadata_keys ks true v) (cs "$schema")
        = some (strip_metadata_keys ks false s)) :=
  ⟨strip_no_xjsonld, strip_no_schema_nonroot, strip_schema_below_root, strip_root_keeps_schema⟩

theorem C10_strip_metadata_witness :
    dictGet (strip_metadata_keys DEFAULT_STRIP_KEYS true
        (jobj [(cs "$schema", .jstr (cs "dialect")),
               (cs "a", jobj [(cs "$schema", .jstr (cs "dialect")),
                              (cs "x-jsonld-extra", .jnull)])]))
      (cs "$schema") = some (strip_metadata_keys DEFAULT_STRIP_KEYS false (.jstr (cs "dialect")))
    ∧ valuesNoKeyP (fun k => k == cs "$schema")
        (strip_metadata_keys DEFAULT_STRIP_KEYS true
          (jobj [(cs "$schema", .jstr (cs "dialect")),
                 (cs "a", jobj [(cs "$schema", .jstr (cs "dialect")),
                                (cs "x-jsonld-extra", .jnull)])])) = true :=
  ⟨C10_strip_metadata.2.2.2 DEFAULT_STRIP_KEYS _ _ (by decide) (by decide),
   C10_strip_metadata.2.2.1 DEFAULT_STRIP_KEYS _⟩

/-!  ## C8: local-fragment refs support exactly `#/$defs/<name>`  -/

theorem splitOnChar_no_sep {c : Char} {l : Str} (h : c ∉ l) : splitOnChar c l = [l] := by
  induction l with
  | nil => rfl
  | cons x xs ih =>
    simp only [List.mem_cons, not_or] at h
    simp only [splitOnChar, if_neg (fun he : x = c => h.1 (Eq.symm he))]
    rw [ih h.2]

theorem splitOnChar_append {c : Char} {l1 : Str} (l2 : Str) (h : c ∉ l1) :
    splitOnChar c (l1 ++ c :: l2) = l1 :: splitOnChar c l2 := by
  induction l1 with
  | nil => simp [splitOnChar]
  | cons x xs ih =>
    simp only [List.mem_cons, not_or] at h
    simp only [List.cons_append, splitOnChar, if_neg (fun he : x = c => h.1 (Eq.symm he)),
      List.append_eq]
    rw [ih h.2]

/-- On a `#/`-prefixed ref, `_resolve_ref` returns exactly the local-shape
lookup: the named definition when the pointer is `["$defs", name]` with
`name` bound, the `unresolved fragment ref` placeholder in every other
case. -/
theorem run_ref_local (fs : FS) (idx : List (Str × Str)) (n : Nat) (bd : Str) (defs : JVal)
    (seen : List Str) (ref : Str) (hpre : (cs "#/").isPrefixOf ref = true) :
    run fs idx (n + 1) (.ref ref bd defs seen)
      = (match localRefShape ref defs with
         | some v => Except.ok v
         | none => Except.ok (unresolvedPH ref)) := by
  simp only [run, localRefShape, hpre, if_true]
  rcases hsp : splitOnChar '/' ((ref.drop 1).dropWhile (· = '/'))
    with _ | ⟨p0, _ | ⟨p1, _ | ⟨p2, rest⟩⟩⟩
  · rfl
  · rfl
  · by_cases hp : p0 = cs "$defs"
    · subst hp
      cases hget : dictGet defs p1 <;> simp [hget]
    · simp [hp]
  · rfl

/-- C8: a `$ref` of the exact shape `#/$defs/<name>` with `<name>` bound
in the local defs table resolves to (a copy of) that definition; every
other `#/`-prefixed pointer — the function never even receives the
enclosing document, only the defs table — yields the
`unresolved fragment ref` placeholder. -/
theorem C8_local_fragment :
    (∀ (fs : FS) (idx : List (Str × Str)) (n : Nat) (bd : Str) (defs : JVal)
      (seen : List Str) (name : Str) (v : JVal), '/' ∉ name → dictGet defs name = some v →
      run fs idx (n + 1) (.ref (cs "#/$defs/" ++ name) bd defs seen) = .ok v)
    ∧ (∀ (fs : FS) (idx : List (Str × Str)) (n : Nat) (bd : Str) (defs : JVal)
      (seen : List Str) (ref : Str), (cs "#/").isPrefixOf ref = true →
      localRefShape ref defs = none →
      run fs idx (n + 1) (.ref ref bd defs seen) = .ok (unresolvedPH ref)) := by
  constructor
  · intro fs idx n bd defs seen name v hsl hget
    rw [run_ref_local fs idx n bd defs seen (cs "#/$defs/" ++ name) rfl]
    have hshape : localRefShape (cs "#/$defs/" ++ name) defs = some v := by
      unfold localRefShape
      have hsp : splitOnChar '/' (((cs "#/$defs/" ++ name).drop 1).dropWhile (· = '/'))
          = [cs "$defs", name] := by
        show splitOnChar '/' (cs "$defs" ++ '/' :: name) = [cs "$defs", name]
        rw [splitOnChar_append name (by decide), splitOnChar_no_sep hsl]
      rw [hsp]
      exact hget
    rw [hshape]
  · intro fs idx n bd defs seen ref hpre hnone
    rw [run_ref_local fs idx n bd defs seen ref hpre, hnone]

theorem C8_local_fragment_witness :
    run fsD [] 5 (.ref (cs "#/$defs/" ++ cs "T") (cs "") (jobj [(cs "T", .jbool true)]) [])
      = .ok (.jbool true)
    ∧ run fsD [] 5 (.ref (cs "#/properties/foo") (cs "")
        (jobj [(cs "properties", jobj [(cs "foo", .jbool true)])]) [])
      = .ok (unresolvedPH (cs "#/properties/foo")) :=
  ⟨C8_local_fragment.1 fsD [] 4 (cs "") (jobj [(cs "T", .jbool true)]) [] (cs "T") (.jbool true)
    (by decide) (by decide),
   C8_local_fragment.2 fsD [] 4 (cs "") (jobj [(cs "properties", jobj [(cs "foo", .jbool true)])])
    [] (cs "#/properties/foo") (by decide) (by decide)⟩

/-!  ## C7: `bblocks://` parity with relative-file references  -/

theorem splitHash_append {l1 : Str} (l2 : Str) (h : '#' ∉ l1) :
    splitHash (l1 ++ '#' :: l2) = (l1, some l2) := by
  induction l1 with
  | nil => simp [splitHash]
  | cons x xs ih =>
    simp only [List.mem_cons, not_or] at h
    simp only [List.cons_append, splitHash, if_neg (fun he : x = '#' => h.1 (Eq.symm he)),
      List.append_eq]
    rw [ih h.2]

theorem splitHash_no_hash {l : Str} (h : '#' ∉ l) : splitHash l = (l, none) := by
  induction l with
  | nil => rfl
  | cons x xs ih =>
    simp only [List.mem_cons, not_or] at h
    simp only [splitHash, if_neg (fun he : x = '#' => h.1 (Eq.symm he))]
    rw [ih h.2]

theorem bb_not_local (l : Str) : (cs "#/").isPrefixOf (cs "bblocks://" ++ l) = false := rfl

theorem bb_is_bblocks (l : Str) : (cs "bblocks:").isPrefixOf (cs "bblocks://" ++ l) = true := rfl

theorem isPrefixOf_self_append (p l : Str) : p.isPrefixOf (p ++ l) = true := by
  induction p with
  | nil => cases l <;> rfl
  | cons x xs ih => simp [List.isPrefixOf, ih]

theorem bb_long_pre (l : Str) : (cs "bblocks://").isPrefixOf (cs "bblocks://" ++ l) = true :=
  isPrefixOf_self_append (cs "bblocks://") l

theorem bb_drop10 (l : Str) : (cs "bblocks://" ++ l).drop 10 = l := rfl

/-- C7 (amended): for an identifier bound in the index to a path that
exists, a `bblocks://` reference resolves identically to a relative-file
reference that joins to the same path — both with a fragment, provided
the fragment's resolution does not fail with `KeyError` (first conjunct),
and always without a fragment (second conjunct).  The original claim
fails for `KeyError` fragments only because the two branches embed
different names in the diagnostic text, see the counterexample. -/
theorem C7_bblocks_parity :
    (∀ (fs : FS) (idx : List (Str × Str)) (n : Nat) (bd bd' : Str) (defs defs' : JVal)
      (seen : List Str) (id rel path f : Str),
      '#' ∉ id → '#' ∉ rel →
      (cs "#/").isPrefixOf (rel ++ '#' :: f) = false →
      (cs "bblocks:").isPrefixOf (rel ++ '#' :: f) = false →
      idx ≠ [] → List.lookup id idx = some path →
      fs.join bd' rel = path → (∃ d, FS.load fs path = some d) →
      (match run fs idx n (.file path seen (fragTruthy (some f))) with
       | .ok v => !isKeyErr (resolve_fragment v f)
       | .error _ => true) = true →
      run fs idx (n + 1) (.ref (cs "bblocks://" ++ (id ++ '#' :: f)) bd defs seen)
        = run fs idx (n + 1) (.ref (rel ++ '#' :: f) bd' defs' seen))
    ∧ (∀ (fs : FS) (idx : List (Str × Str)) (n : Nat) (bd bd' : Str) (defs defs' : JVal)
      (seen : List Str) (id rel path : Str),
      '#' ∉ id → '#' ∉ rel →
      (cs "#/").isPrefixOf rel = false →
      (cs "bblocks:").isPrefixOf rel = false →
      idx ≠ [] → List.lookup id idx = some path →
      fs.join bd' rel = path → (∃ d, FS.load fs path = some d) →
      run fs idx (n + 1) (.ref (cs "bblocks://" ++ id) bd defs seen)
        = run fs idx (n + 1) (.ref rel bd' defs' seen)) := by
  constructor
  · intro fs idx n bd bd' defs defs' seen id rel path f hid hrel hp1 hp2 hidx hlook hjoin hex hkey
    obtain ⟨d, hd⟩ := hex
    have hsplitL : splitHash ((cs "bblocks://" ++ (id ++ '#' :: f)).drop 10) = (id, some f) := by
      rw [bb_drop10]; exact splitHash_append f hid
    have hsplitR : splitHash (rel ++ '#' :: f) = (rel, some f) := splitHash_append f hrel
    simp only [run, bb_not_local, bb_is_bblocks, bb_long_pre, hp1, hp2, Bool.false_eq_true,
      if_false, if_true, if_neg hidx, hsplitL, hsplitR, hlook, hjoin, hd]
    cases hrun : run fs idx n (.file path seen (fragTruthy (some f))) with
    | error e => rfl
    | ok v =>
      rw [hrun] at hkey
      simp only [] at hkey ⊢
      by_cases hf : f.isEmpty
      · rw [if_pos hf, if_pos hf]
      · rw [if_neg hf, if_neg hf]
        cases hfrag : resolve_fragment v f with
        | ok fv => rfl
        | error fe =>
          cases fe with
          | key e =>
            rw [hfrag] at hkey
            simp [isKeyErr] at hkey
          | val s => rfl
          | idx => rfl
  · intro fs idx n bd bd' defs defs' seen id rel path hid hrel hp1 hp2 hidx hlook hjoin hex
    obtain ⟨d, hd⟩ := hex
    have hsplitL : splitHash ((cs "bblocks://" ++ id).drop 10) = (id, none) := by
      rw [bb_drop10]; exact splitHash_no_hash hid
    have hsplitR : splitHash rel = (rel, none) := splitHash_no_hash hrel
    simp only [run, bb_not_local, bb_is_bblocks, bb_long_pre, hp1, hp2, Bool.false_eq_true,
      if_false, if_true, if_neg hidx, hsplitL, hsplitR, hlook, hjoin, hd]

/-- C7 counterexample: `a.b` is bound in the index to the existing path
`p7`, yet with fragment `/nope` (which raises `KeyError`) the
`bblocks://` reference and the equivalent file reference produce
different diagnostic placeholders, so the results are not identical for
every fragment. -/
theorem C7_bblocks_parity_cex :
    List.lookup (cs "a.b") idx7 = some (cs "p7")
    ∧ FS.load fs7 (cs "p7") ≠ none
    ∧ run fs7 idx7 20 (.ref (cs "bblocks://a.b#/nope") (cs "") .onil [])
      ≠ run fs7 idx7 20 (.ref (cs "p7#/nope") (cs "") .onil []) :=
  ⟨by decide, by decide, by decide⟩

theorem C7_bblocks_parity_witness :
    run fs8 idx8 19 (.ref (cs "bblocks://" ++ (cs "a.c" ++ '#' :: cs "/$defs/T")) (cs "") .onil [])
      = run fs8 idx8 19 (.ref (cs "p8" ++ '#' :: cs "/$defs/T") (cs "") .onil [])
    ∧ run fs8 idx8 19 (.ref (cs "bblocks://" ++ cs "a.c") (cs "") .onil [])
      = run fs8 idx8 19 (.ref (cs "p8") (cs "") .onil []) :=
  ⟨C7_bblocks_parity.1 fs8 idx8 18 (cs "") (cs "") .onil .onil [] (cs "a.c") (cs "p8")
      (cs "p8") (cs "/$defs/T") (by decide) (by decide) (by decide) (by decide)
      (by decide) (by decide) (by decide)
      ⟨jobj [(cs "$defs", jobj [(cs "T", jobj [(cs "type", .jstr (cs "number"))])]),
        (cs "type", .jstr (cs "object"))], by decide⟩ (by decide),
   C7_bblocks_parity.2 fs8 idx8 18 (cs "") (cs "") .onil .onil [] (cs "a.c") (cs "p8")
      (cs "p8") (by decide) (by decide) (by decide) (by decide) (by decide) (by decide)
      (by decide)
      ⟨jobj [(cs "$defs", jobj [(cs "T", jobj [(cs "type", .jstr (cs "number"))])]),
        (cs "type", .jstr (cs "object"))], by decide⟩⟩

/-!  ## C6: allOf flattening  -/

theorem dictGet_none_hasKey {d : JVal} {k : Str} (h : dictGet d k = none) :
    hasKey d k = false := by
  induction d with
  | ocons k0 v r _ ihr =>
    by_cases hk : k0 = k
    · simp [dictGet, hk] at h
    · simp only [dictGet, if_neg hk] at h
      simp only [hasKey, Bool.or_eq_false_iff, decide_eq_false_iff_not]
      exact ⟨hk, ihr h⟩
  | _ => rfl

theorem deepNoKeyP_dictGet {p : Str → Bool} {d : JVal} {k : Str} {v : JVal}
    (hd : deepNoKeyP p d = true) (h : dictGet d k = some v) : deepNoKeyP p v = true := by
  induction d with
  | ocons k0 w r _ ihr =>
    simp only [deepNoKeyP, Bool.and_eq_true] at hd
    by_cases hk : k0 = k
    · have hw : w = v := by simpa [dictGet, hk] using h
      exact hw ▸ hd.1.2
    · exact ihr hd.2 (by simpa [dictGet, hk] using h)
  | _ => simp [dictGet] at h

theorem valuesNoKeyP_dictGet {p : Str → Bool} {d : JVal} {k : Str} {v : JVal}
    (hd : valuesNoKeyP p d = true) (h : dictGet d k = some v) : deepNoKeyP p v = true := by
  induction d with
  | ocons k0 w r _ ihr =>
    simp only [valuesNoKeyP, Bool.and_eq_true] at hd
    by_cases hk : k0 = k
    · have hw : w = v := by simpa [dictGet, hk] using h
      exact hw ▸ hd.1
    · exact ihr hd.2 (by simpa [dictGet, hk] using h)
  | _ => simp [dictGet] at h

theorem deepNoKeyP_dictSet {p : Str → Bool} {d : JVal} {k : Str} {v : JVal}
    (hd : deepNoKeyP p d = true) (hk : p k = false) (hv : deepNoKeyP p v = true) :
    deepNoKeyP p (dictSet d k v) = true := by
  induction d with
  | ocons k0 w r _ ihr =>
    simp only [deepNoKeyP, Bool.and_eq_true] at hd
    by_cases he : k0 = k
    · subst he
      simp only [dictSet, if_pos rfl, deepNoKeyP, Bool.and_eq_true]
      exact ⟨⟨hd.1.1, hv⟩, hd.2⟩
    · simp only [dictSet, if_neg he, deepNoKeyP, Bool.and_eq_true]
      exact ⟨hd.1, ihr hd.2⟩
  | onil =>
    simp only [dictSet, deepNoKeyP, Bool.and_eq_true]
    exact ⟨⟨by simp [hk], hv⟩, trivial⟩
  | _ => exact hd

theorem deepNoKeyP_merge {p : Str → Bool} {o : JVal} :
    ∀ {b : JVal} (ip : Bool), deepNoKeyP p b = true → deepNoKeyP p o = true →
      deepNoKeyP p (deepMergeInner ip b o) = true := by
  induction o with
  | ocons k v rest ihv ihr =>
    intro b ip hb ho
    simp only [deepNoKeyP, Bool.and_eq_true] at ho
    obtain ⟨⟨hk, hv⟩, hrest⟩ := ho
    have hk' : p k = false := by simpa using hk
    simp only [deepMergeInner]
    apply ihr ip ?_ hrest
    split
    · rename_i rb heq
      have hrb := deepNoKeyP_dictGet hb heq
      by_cases h1 : (isObj rb && isObj v) = true
      · rw [if_pos h1]
        by_cases h2 : (ip && isCompleteSchema v) = true
        · rw [if_pos h2]; exact deepNoKeyP_dictSet hb hk' hv
        · rw [if_neg h2]; exact deepNoKeyP_dictSet hb hk' (ihv _ hrb hv)
      · rw [if_neg h1]; exact deepNoKeyP_dictSet hb hk' hv
    · exact deepNoKeyP_dictSet hb hk' hv
  | _ => intro b ip hb ho; exact hb

theorem deepNoKeyP_fold {p : Str → Bool} {L : JVal} :
    ∀ {m : JVal}, deepNoKeyP p m = true → deepNoKeyP p L = true →
      deepNoKeyP p (allofFold m L) = true := by
  induction L with
  | acons e r _ ihr =>
    intro m hm hL
    simp only [deepNoKeyP, Bool.and_eq_true] at hL
    simp only [allofFold]
    by_cases he : isObj e = true
    · rw [if_pos he]
      exact ihr (deepNoKeyP_merge false hm hL.1) hL.2
    · rw [if_neg he]
      exact ihr hm hL.2
  | _ => intro m hm _; exact hm

theorem valuesNoKeyP_removeKey {p : Str → Bool} {d : JVal} (kk : Str)
    (hd : valuesNoKeyP p d = true) : valuesNoKeyP p (removeKey d kk) = true := by
  induction d with
  | ocons k v r _ ihr =>
    simp only [valuesNoKeyP, Bool.and_eq_true] at hd
    by_cases hk : k = kk
    · simp only [removeKey, if_pos hk]; exact hd.2
    · simp only [removeKey, if_neg hk, valuesNoKeyP, Bool.and_eq_true]
      exact ⟨hd.1, ihr hd.2⟩
  | _ => rfl

theorem topNodup_removeKey {d : JVal} {kk : Str} (hd : topNodupB d = true) :
    hasKey (removeKey d kk) kk = false := by
  induction d with
  | ocons k v r _ ihr =>
    simp only [topNodupB, Bool.and_eq_true, Bool.not_eq_true'] at hd
    by_cases hk : k = kk
    · simp only [removeKey, if_pos hk]
      exact hk ▸ hd.1
    · simp only [removeKey, if_neg hk, hasKey, Bool.or_eq_false_iff, decide_eq_false_iff_not]
      exact ⟨hk, ihr hd.2⟩
  | _ => rfl

theorem objSpineB_removeKey {d : JVal} (kk : Str) (hd : objSpineB d = true) :
    objSpineB (removeKey d kk) = true := by
  induction d with
  | ocons k v r _ ihr =>
    by_cases hk : k = kk
    · simp only [removeKey, if_pos hk]; exact hd
    · simp only [removeKey, if_neg hk, objSpineB]
      exact ihr hd
  | onil => rfl
  | _ => exact (Bool.false_ne_true hd).elim

theorem spine_clean {p : Str → Bool} {kk : Str} (hp : ∀ k, p k = true → k = kk) {s : JVal}
    (hv : valuesNoKeyP p s = true) (hk : hasKey s kk = false) (hsp : objSpineB s = true) :
    deepNoKeyP p s = true := by
  induction s with
  | ocons k w r _ ihr =>
    simp only [valuesNoKeyP, Bool.and_eq_true] at hv
    obtain ⟨hne, hkr⟩ := hasKey_cons_false hk
    simp only [deepNoKeyP, Bool.and_eq_true, Bool.not_eq_true']
    refine ⟨⟨?_, hv.1⟩, ihr hv.2 hkr hsp⟩
    by_cases hpk : p k = true
    · exact absurd (hp k hpk) hne
    · simpa using hpk
  | onil => rfl
  | acons x r _ _ => exact (Bool.false_ne_true hsp).elim
  | _ => rfl

theorem pyWF_objSpine {v : JVal} : pyWF v = true → isObj v = true → objSpineB v = true := by
  induction v with
  | ocons k w r _ ihr =>
    intro hwf _
    simp only [pyWF, Bool.and_eq_true] at hwf
    simp only [objSpineB]
    exact ihr hwf.1.2 hwf.2
  | onil => intro _ _; rfl
  | _ => intro _ h; exact (Bool.false_ne_true h).elim

theorem isArr_not_isObj {v : JVal} (h : isArr v = true) : isObj v = false := by
  cases v <;> first | rfl | exact (Bool.false_ne_true h).elim

/-- Joint invariant of `flattenM`: in function mode (`true`) the output
contains no `allOf` key anywhere; in spine mode (`false`) the values are
clean, keys are preserved, and well-formedness transports. -/
theorem flatten_noAllOf : ∀ v : JVal, pyWF v = true →
    deepNoKeyP (fun k => k == cs "allOf") (flattenM true v) = true
    ∧ (valuesNoKeyP (fun k => k == cs "allOf") (flattenM false v) = true
      ∧ (∀ k, hasKey (flattenM false v) k = hasKey v k)
      ∧ (isObj v = false → deepNoKeyP (fun k => k == cs "allOf") (flattenM false v) = true)
      ∧ topNodupB (flattenM false v) = true
      ∧ objSpineB (flattenM false v) = objSpineB v) := by
  have hpAll : ∀ k : Str, (k == cs "allOf") = true → k = cs "allOf" := fun k hk => by
    simpa using hk
  intro v
  induction v with
  | ocons k w r ihw ihr =>
    intro hwf
    simp only [pyWF, Bool.and_eq_true, Bool.not_eq_true'] at hwf
    obtain ⟨⟨⟨hnk, hw⟩, hr⟩, hobj⟩ := hwf
    have IHw := ihw hw
    obtain ⟨_, ha, hb, _, hd2, he⟩ := ihr hr
    have hvals : valuesNoKeyP (fun k => k == cs "allOf")
        (.ocons k (flattenM true w) (flattenM false r)) = true := by
      simp only [valuesNoKeyP, Bool.and_eq_true]
      exact ⟨IHw.1, ha⟩
    have htop : topNodupB (.ocons k (flattenM true w) (flattenM false r)) = true := by
      simp only [topNodupB, Bool.and_eq_true, Bool.not_eq_true']
      exact ⟨(hb k).trans hnk, hd2⟩
    have hspine : objSpineB (.ocons k (flattenM true w) (flattenM false r)) = true := by
      simp only [objSpineB]
      exact he.trans (pyWF_objSpine hr hobj)
    constructor
    · simp only [flattenM]
      split
      · rename_i L heq
        have hL := valuesNoKeyP_dictGet hvals heq
        exact deepNoKeyP_fold
          (spine_clean hpAll (valuesNoKeyP_removeKey _ hvals)
            (topNodup_removeKey htop) (objSpineB_removeKey _ hspine)) hL
      · rename_i heq
        exact spine_clean hpAll hvals (dictGet_none_hasKey heq) hspine
    · refine ⟨?_, ?_, ?_, ?_, ?_⟩
      · simpa only [flattenM] using hvals
      · intro kk
        simp only [flattenM, hasKey, hb kk]
      · intro hfalse
        simp [isObj] at hfalse
      · simpa only [flattenM] using htop
      · simp only [flattenM, objSpineB]
        exact he
  | acons x r ihx ihr =>
    intro hwf
    simp only [pyWF, Bool.and_eq_true] at hwf
    obtain ⟨⟨hx, hr⟩, harr⟩ := hwf
    have IHx := ihx hx
    obtain ⟨_, _, _, hc, _, _⟩ := ihr hr
    have hdnkr : deepNoKeyP (fun k => k == cs "allOf") (flattenM false r) = true :=
      hc (isArr_not_isObj harr)
    constructor
    · simp only [flattenM, deepNoKeyP, Bool.and_eq_true]
      exact ⟨IHx.1, hdnkr⟩
    · refine ⟨rfl, fun _ => rfl, ?_, rfl, rfl⟩
      intro _
      simp only [flattenM, deepNoKeyP, Bool.and_eq_true]
      exact ⟨IHx.1, hdnkr⟩
  | onil => intro _; exact ⟨rfl, rfl, fun _ => rfl, fun _ => rfl, rfl, rfl⟩
  | anil => intro _; exact ⟨rfl, rfl, fun _ => rfl, fun _ => rfl, rfl, rfl⟩
  | jstr s => intro _; exact ⟨rfl, rfl, fun _ => rfl, fun _ => rfl, rfl, rfl⟩
  | jint i => intro _; exact ⟨rfl, rfl, fun _ => rfl, fun _ => rfl, rfl, rfl⟩
  | jbool b => intro _; exact ⟨rfl, rfl, fun _ => rfl, fun _ => rfl, rfl, rfl⟩
  | jnull => intro _; exact ⟨rfl, rfl, fun _ => rfl, fun _ => rfl, rfl, rfl⟩

/-- C6: `flatten_allof` on the claim's example merges both entries (in
order) with the object's own keys into one object carrying both
properties and no `allOf` key (first conjunct); `oneOf`/`anyOf` arrays
are kept as arrays — alternatives are never merged — while `allOf`
nested inside them is still flattened by the recurse-first strategy
(second conjunct); and on every well-formed input (each `allOf` carrying
an array, dicts as Python can produce them) the output contains no
`allOf` key in any object (third conjunct). -/
theorem C6_flatten_allof :
    flatten_allof (jobj [(cs "allOf", jarr
      [ jobj [(cs "type", .jstr (cs "object")),
              (cs "properties", jobj [(cs "a", jobj [(cs "type", .jstr (cs "string"))])])],
        jobj [(cs "properties", jobj [(cs "b", jobj [(cs "type", .jstr (cs "number"))])])] ])])
      = jobj [(cs "type", .jstr (cs "object")),
              (cs "properties", jobj
                [(cs "a", jobj [(cs "type", .jstr (cs "string"))]),
                 (cs "b", jobj [(cs "type", .jstr (cs "number"))])])]
    ∧ flatten_allof (jobj
        [(cs "oneOf", jarr [jobj [(cs "allOf", jarr [jobj [(cs "type", .jstr (cs "string"))]])]]),
         (cs "anyOf", jarr [jobj [(cs "x", .jint 1)]])])
      = jobj
        [(cs "oneOf", jarr [jobj [(cs "type", .jstr (cs "string"))]]),
         (cs "anyOf", jarr [jobj [(cs "x", .jint 1)]])]
    ∧ (∀ v : JVal, wfAllofB v = true → pyWF v = true →
        deepNoKeyP (fun k => k == cs "allOf") (flatten_allof v) = true) := by
  refine ⟨by decide, by decide, ?_⟩
  intro v _ hwf
  exact (flatten_noAllOf v hwf).1

theorem C6_flatten_allof_witness :
    deepNoKeyP (fun k => k == cs "allOf")
      (flatten_allof (jobj [(cs "allOf", jarr [jobj [(cs "type", .jstr (cs "object"))]]),
        (cs "title", .jstr (cs "t"))])) = true :=
  C6_flatten_allof.2.2
    (jobj [(cs "allOf", jarr [jobj [(cs "type", .jstr (cs "object"))]]),
      (cs "title", .jstr (cs "t"))]) (by decide) (by decide)

/-!  ## C9: `deep_merge` mutates neither argument (heap model)  -/

theorem lookup_assocSet_ne {m : List (Nat × HObj)} {a b : Nat} (o : HObj) (h : a ≠ b) :
    List.lookup a (assocSet m b o) = List.lookup a m := by
  have hab : (a == b) = false := beq_eq_false_iff_ne.mpr h
  induction m with
  | nil => simp [assocSet, List.lookup, hab]
  | cons e r ih =>
    obtain ⟨c, p⟩ := e
    by_cases hc : c = b
    · subst hc
      simp [assocSet, List.lookup, hab]
    · simp [assocSet, hc, List.lookup, ih]

theorem lookup_assocSet_self (m : List (Nat × HObj)) (a : Nat) (o : HObj) :
    List.lookup a (assocSet m a o) = some o := by
  induction m with
  | nil => simp [assocSet, List.lookup]
  | cons e r ih =>
    obtain ⟨c, p⟩ := e
    by_cases hc : c = a
    · subst hc
      simp [assocSet, List.lookup]
    · have : (a == c) = false := beq_eq_false_iff_ne.mpr (fun he => hc (Eq.symm he))
      simp [assocSet, hc, List.lookup, this, ih]

theorem get_set_ne {h : Heap} {a b : Nat} (o : HObj) (hne : a ≠ b) :
    (h.set b o).get a = h.get a := lookup_assocSet_ne o hne

theorem get_set_self (h : Heap) (a : Nat) (o : HObj) : (h.set a o).get a = some o :=
  lookup_assocSet_self h.mem a o

theorem get_alloc_lt {h : Heap} {a : Nat} (o : HObj) (ha : a < h.nxt) :
    ((h.alloc o).2).get a = h.get a := by
  have : (a == h.nxt) = false := beq_eq_false_iff_ne.mpr (Nat.ne_of_lt ha)
  simp [Heap.alloc, Heap.get, List.lookup, this]

theorem get_alloc_self (h : Heap) (o : HObj) :
    ((h.alloc o).2).get (h.alloc o).1 = some o := by
  simp [Heap.alloc, Heap.get, List.lookup]

theorem lookup_mem : ∀ {m : List (Nat × HObj)} {a : Nat} {o : HObj},
    List.lookup a m = some o → (a, o) ∈ m := by
  intro m
  induction m with
  | nil => intro a o h; exact Option.noConfusion h
  | cons e r ih =>
    intro a o h
    obtain ⟨c, p⟩ := e
    by_cases hc : a = c
    · subst hc
      simp only [List.lookup, beq_self_eq_true] at h
      injection h with h
      simp [h]
    · have hr : List.lookup a r = some o := by
        simpa [List.lookup, beq_eq_false_iff_ne.mpr hc] using h
      exact List.mem_cons_of_mem _ (ih hr)

theorem wfb_children {h : Heap} (hwf : h.wfb = true) {a : Nat} {o : HObj}
    (hg : h.get a = some o) : a < h.nxt ∧ ∀ c ∈ childAddrs o, c < h.nxt := by
  have hmem : (a, o) ∈ h.mem := lookup_mem hg
  have := (List.all_eq_true.mp hwf) (a, o) hmem
  simp only [Bool.and_eq_true, decide_eq_true_eq, List.all_eq_true] at this
  exact ⟨this.1, fun c hc => by simpa using this.2 c hc⟩

theorem writeVal_spec (v : JVal) : ∀ h : Heap,
    h.nxt ≤ (writeVal v h).1 ∧ (writeVal v h).1 < (writeVal v h).2.nxt
    ∧ (∀ b, b < h.nxt → (writeVal v h).2.get b = h.get b) := by
  induction v with
  | acons x t ihx iht =>
    intro h
    obtain ⟨h1a, h1b, h1c⟩ := ihx h
    obtain ⟨h2a, h2b, h2c⟩ := iht (writeVal x h).2
    have hle1 : h.nxt ≤ (writeVal x h).2.nxt := le_trans h1a (le_of_lt h1b)
    have hle2 : h.nxt ≤ (writeVal t (writeVal x h).2).2.nxt :=
      le_trans hle1 (le_trans h2a (le_of_lt h2b))
    simp only [writeVal]
    split <;>
      exact ⟨hle2, Nat.lt_succ_self _, fun b hb =>
        (get_alloc_lt _ (lt_of_lt_of_le hb hle2)).trans
          ((h2c b (lt_of_lt_of_le hb hle1)).trans (h1c b hb))⟩
  | ocons k x t ihx iht =>
    intro h
    obtain ⟨h1a, h1b, h1c⟩ := ihx h
    obtain ⟨h2a, h2b, h2c⟩ := iht (writeVal x h).2
    have hle1 : h.nxt ≤ (writeVal x h).2.nxt := le_trans h1a (le_of_lt h1b)
    have hle2 : h.nxt ≤ (writeVal t (writeVal x h).2).2.nxt :=
      le_trans hle1 (le_trans h2a (le_of_lt h2b))
    simp only [writeVal]
    split <;>
      exact ⟨hle2, Nat.lt_succ_self _, fun b hb =>
        (get_alloc_lt _ (lt_of_lt_of_le hb hle2)).trans
          ((h2c b (lt_of_lt_of_le hb hle1)).trans (h1c b hb))⟩
  | jstr s => exact fun h => ⟨Nat.le_refl _, Nat.lt_succ_self _, fun b hb => get_alloc_lt _ hb⟩
  | jint i => exact fun h => ⟨Nat.le_refl _, Nat.lt_succ_self _, fun b hb => get_alloc_lt _ hb⟩
  | jbool b => exact fun h => ⟨Nat.le_refl _, Nat.lt_succ_self _, fun b hb => get_alloc_lt _ hb⟩
  | jnull => exact fun h => ⟨Nat.le_refl _, Nat.lt_succ_self _, fun b hb => get_alloc_lt _ hb⟩
  | anil => exact fun h => ⟨Nat.le_refl _, Nat.lt_succ_self _, fun b hb => get_alloc_lt _ hb⟩
  | onil => exact fun h => ⟨Nat.le_refl _, Nat.lt_succ_self _, fun b hb => get_alloc_lt _ hb⟩

theorem writeVal_dict {v : JVal} (hobj : isObj v = true) (h : Heap) :
    ∃ f, (writeVal v h).2.get (writeVal v h).1 = some (.dict f) := by
  cases v with
  | onil => exact ⟨[], get_alloc_self h (.dict [])⟩
  | ocons k w t =>
    simp only [writeVal]
    split
    · exact ⟨_, get_alloc_self _ _⟩
    · exact ⟨_, get_alloc_self _ _⟩
  | _ => exact (Bool.false_ne_true hobj).elim

theorem deepcopy_spec {fuel a : Nat} {h : Heap} {rh : Nat × Heap}
    (hd : deepcopy fuel a h = some rh) :
    h.nxt ≤ rh.1 ∧ rh.1 < rh.2.nxt ∧ (∀ b, b < h.nxt → rh.2.get b = h.get b) := by
  unfold deepcopy at hd
  cases hj : readRun fuel h (.val a) with
  | none => rw [hj] at hd; exact Option.noConfusion hd
  | some jv =>
    rw [hj] at hd
    injection hd with hd
    obtain ⟨s1, s2, s3⟩ := writeVal_spec jv h
    rw [hd] at s1 s2 s3
    exact ⟨s1, s2, s3⟩

theorem readRun_objL_isObj {n : Nat} {h : Heap} {l : List (Str × Nat)} {jv : JVal}
    (hr : readRun n h (.objL l) = some jv) : isObj jv = true := by
  cases n with
  | zero => exact Option.noConfusion hr
  | succ m =>
    cases l with
    | nil =>
      injection hr with hr
      rw [← hr]; rfl
    | cons e r =>
      obtain ⟨k, a⟩ := e
      simp only [readRun] at hr
      split at hr
      · injection hr with hr; rw [← hr]; rfl
      · exact Option.noConfusion hr

theorem deepcopy_dict {fuel a : Nat} {h : Heap} {bf : List (Str × Nat)} {rh : Nat × Heap}
    (hb : h.get a = some (.dict bf)) (hd : deepcopy fuel a h = some rh) :
    ∃ f, rh.2.get rh.1 = some (.dict f) := by
  unfold deepcopy at hd
  cases hj : readRun fuel h (.val a) with
  | none => rw [hj] at hd; exact Option.noConfusion hd
  | some jv =>
    rw [hj] at hd
    injection hd with hd
    have hobj : isObj jv = true := by
      cases fuel with
      | zero => exact Option.noConfusion hj
      | succ n =>
        simp only [readRun, hb] at hj
        exact readRun_objL_isObj hj
    obtain ⟨f, hf⟩ := writeVal_dict hobj h
    rw [hd] at hf
    exact ⟨f, hf⟩

theorem setField_nxt (h : Heap) (res : Nat) (k : Str) (c : Nat) :
    (setField h res k c).nxt = h.nxt := by
  unfold setField
  split
  · rfl
  · rfl

theorem setField_get_ne {h : Heap} {res : Nat} (k : Str) (c : Nat) {b : Nat} (hne : b ≠ res) :
    (setField h res k c).get b = h.get b := by
  unfold setField
  split
  · exact get_set_ne _ hne
  · rfl

theorem setField_get_self {h : Heap} {res : Nat} {f : List (Str × Nat)}
    (hres : h.get res = some (.dict f)) (k : Str) (c : Nat) :
    (setField h res k c).get res = some (.dict (fieldSet f k c)) := by
  unfold setField
  rw [hres]
  exact get_set_self h res _

theorem step_copy_frame {fuel va res : Nat} {k : Str} {h : Heap} {rh : Nat × Heap} {B : Nat}
    (hB : B ≤ h.nxt) (hres : B ≤ res)
    (hr : (deepcopy fuel va h).map (fun ch => (res, setField ch.2 res k ch.1)) = some rh) :
    h.nxt ≤ rh.2.nxt ∧ (∀ b, b < B → rh.2.get b = h.get b) := by
  obtain ⟨ch, hdc, hx⟩ := Option.map_eq_some'.mp hr
  obtain ⟨d1, d2, d3⟩ := deepcopy_spec hdc
  rw [← hx]
  constructor
  · simpa only [setField_nxt] using le_trans d1 (le_of_lt d2)
  · intro b hb
    have hbne : b ≠ res := Nat.ne_of_lt (lt_of_lt_of_le hb hres)
    calc (setField ch.2 res k ch.1).get b = ch.2.get b := setField_get_ne _ _ hbne
      _ = h.get b := d3 b (lt_of_lt_of_le hb hB)

/-- Frame property of the heap-level merge: the next-address counter is
monotone, and every address below the bound `B` (which must lie below the
result address being mutated, when there is one) keeps its exact stored
object. -/
theorem hrun_frame : ∀ (n : Nat) (mc : MCall) (h : Heap) (rh : Nat × Heap) (B : Nat),
    hrun n mc h = some rh → B ≤ h.nxt →
    (∀ items res ip, mc = .loop items res ip → B ≤ res) →
    (∀ k va res ip, mc = .stepc k va res ip → B ≤ res) →
    h.nxt ≤ rh.2.nxt ∧ (∀ b, b < B → rh.2.get b = h.get b) := by
  intro n
  induction n with
  | zero => intro mc h rh B hr _ _ _; exact Option.noConfusion hr
  | succ m ih =>
    intro mc h rh B hr hB hloop hstep
    cases mc with
    | merge b o ip =>
      simp only [hrun] at hr
      cases hdc : deepcopy (m+1) b h with
      | none => rw [hdc] at hr; exact Option.noConfusion hr
      | some ch =>
        rw [hdc] at hr
        simp only [] at hr
        obtain ⟨d1, d2, d3⟩ := deepcopy_spec hdc
        split at hr
        · rename_i items heq
          have L := ih (.loop items ch.1 ip) ch.2 rh B hr
            (le_trans hB (le_trans d1 (le_of_lt d2)))
            (fun _ res' _ he => by injection he with _ h2 _; rw [← h2]; exact le_trans hB d1)
            (fun _ _ _ _ he => MCall.noConfusion he)
          refine ⟨le_trans (le_trans d1 (le_of_lt d2)) L.1, fun b hb => ?_⟩
          rw [L.2 b hb, d3 b (lt_of_lt_of_le hb hB)]
        · exact Option.noConfusion hr
    | loop items res ip =>
      have hres : B ≤ res := hloop items res ip rfl
      cases items with
      | nil =>
        simp only [hrun] at hr
        injection hr with hr
        rw [← hr]
        exact ⟨Nat.le_refl _, fun b _ => rfl⟩
      | cons kv rest =>
        obtain ⟨k, va⟩ := kv
        simp only [hrun] at hr
        cases hs : hrun m (.stepc k va res ip) h with
        | none => rw [hs] at hr; exact Option.noConfusion hr
        | some sh =>
          rw [hs] at hr
          simp only [] at hr
          have S := ih (.stepc k va res ip) h sh B hs hB
            (fun _ _ _ he => MCall.noConfusion he)
            (fun _ _ res' _ he => by injection he with _ _ h3 _; rw [← h3]; exact hres)
          have L := ih (.loop rest res ip) sh.2 rh B hr (le_trans hB S.1)
            (fun _ res' _ he => by injection he with _ h2 _; rw [← h2]; exact hres)
            (fun _ _ _ _ he => MCall.noConfusion he)
          exact ⟨le_trans S.1 L.1, fun b hb => (L.2 b hb).trans (S.2 b hb)⟩
    | stepc k va res ip =>
      have hres : B ≤ res := hstep k va res ip rfl
      simp only [hrun] at hr
      split at hr
      · split at hr
        · split at hr
          · split at hr
            · exact step_copy_frame hB hres hr
            · obtain ⟨mh, hmg, hx⟩ := Option.map_eq_some'.mp hr
              have M := ih _ h mh B hmg hB
                (fun _ _ _ he => MCall.noConfusion he)
                (fun _ _ _ _ he => MCall.noConfusion he)
              rw [← hx]
              constructor
              · simpa only [setField_nxt] using M.1
              · intro b hb
                have hbne : b ≠ res := Nat.ne_of_lt (lt_of_lt_of_le hb hres)
                calc (setField mh.2 res k mh.1).get b
                    = mh.2.get b := setField_get_ne _ _ hbne
                  _ = h.get b := M.2 b hb
          all_goals exact step_copy_frame hB hres hr
        · exact step_copy_frame hB hres hr
      all_goals exact Option.noConfusion hr

theorem stepc_res {n : Nat} {k : Str} {va res : Nat} {ip : Bool} {h : Heap} {rh : Nat × Heap}
    (hr : hrun n (.stepc k va res ip) h = some rh) : rh.1 = res := by
  cases n with
  | zero => exact Option.noConfusion hr
  | succ m =>
    simp only [hrun] at hr
    split at hr
    · split at hr
      · split at hr
        · split at hr
          · obtain ⟨x, _, hx⟩ := Option.map_eq_some'.mp hr; rw [← hx]
          · obtain ⟨x, _, hx⟩ := Option.map_eq_some'.mp hr; rw [← hx]
        all_goals (obtain ⟨x, _, hx⟩ := Option.map_eq_some'.mp hr; rw [← hx])
      · obtain ⟨x, _, hx⟩ := Option.map_eq_some'.mp hr; rw [← hx]
    all_goals exact Option.noConfusion hr

theorem loop_res : ∀ {n : Nat} {items : List (Str × Nat)} {res : Nat} {ip : Bool} {h : Heap}
    {rh : Nat × Heap}, hrun n (.loop items res ip) h = some rh → rh.1 = res := by
  intro n
  induction n with
  | zero => intro _ _ _ _ _ hr; exact Option.noConfusion hr
  | succ m ih =>
    intro items res ip h rh hr
    cases items with
    | nil =>
      simp only [hrun] at hr
      injection hr with hr
      rw [← hr]
    | cons kv rest =>
      obtain ⟨k, va⟩ := kv
      simp only [hrun] at hr
      cases hs : hrun m (.stepc k va res ip) h with
      | none => rw [hs] at hr; exact Option.noConfusion hr
      | some sh =>
        rw [hs] at hr
        simp only [] at hr
        exact ih hr

theorem step_copy_dict {fuel va res : Nat} {k : Str} {h : Heap} {rh : Nat × Heap}
    {f : List (Str × Nat)} (hres : h.get res = some (.dict f)) (hlt : res < h.nxt)
    (hr : (deepcopy fuel va h).map (fun ch => (res, setField ch.2 res k ch.1)) = some rh) :
    ∃ f', rh.2.get res = some (.dict f') := by
  obtain ⟨ch, hdc, hx⟩ := Option.map_eq_some'.mp hr
  obtain ⟨_, _, d3⟩ := deepcopy_spec hdc
  have hc : ch.2.get res = some (.dict f) := by rw [d3 res hlt]; exact hres
  rw [← hx]
  exact ⟨_, setField_get_self hc _ _⟩

theorem stepc_dict {n : Nat} {k : Str} {va res : Nat} {ip : Bool} {h : Heap} {rh : Nat × Heap}
    {f : List (Str × Nat)} (hres : h.get res = some (.dict f)) (hlt : res < h.nxt)
    (hr : hrun n (.stepc k va res ip) h = some rh) :
    ∃ f', rh.2.get res = some (.dict f') := by
  cases n with
  | zero => exact Option.noConfusion hr
  | succ m =>
    simp only [hrun] at hr
    split at hr
    · split at hr
      · split at hr
        · split at hr
          · exact step_copy_dict hres hlt hr
          · obtain ⟨mh, hmg, hx⟩ := Option.map_eq_some'.mp hr
            have M := hrun_frame m _ h mh (res + 1) hmg hlt
              (fun _ _ _ he => MCall.noConfusion he)
              (fun _ _ _ _ he => MCall.noConfusion he)
            have hc : mh.2.get res = some (.dict f) := by
              rw [M.2 res (Nat.lt_succ_self res)]; exact hres
            rw [← hx]
            exact ⟨_, setField_get_self hc _ _⟩
        all_goals exact step_copy_dict hres hlt hr
      · exact step_copy_dict hres hlt hr
    all_goals exact Option.noConfusion hr

theorem loop_dict : ∀ {n : Nat} {items : List (Str × Nat)} {res : Nat} {ip : Bool} {h : Heap}
    {rh : Nat × Heap} {f : List (Str × Nat)},
    h.get res = some (.dict f) → res < h.nxt →
    hrun n (.loop items res ip) h = some rh → ∃ f', rh.2.get res = some (.dict f') := by
  intro n
  induction n with
  | zero => intro _ _ _ _ _ _ _ _ hr; exact Option.noConfusion hr
  | succ m ih =>
    intro items res ip h rh f hres hlt hr
    cases items with
    | nil =>
      simp only [hrun] at hr
      injection hr with hr
      rw [← hr]
      exact ⟨f, hres⟩
    | cons kv rest =>
      obtain ⟨k, va⟩ := kv
      simp only [hrun] at hr
      cases hs : hrun m (.stepc k va res ip) h with
      | none => rw [hs] at hr; exact Option.noConfusion hr
      | some sh =>
        rw [hs] at hr
        simp only [] at hr
        obtain ⟨f2, hf2⟩ := stepc_dict hres hlt hs
        have S := hrun_frame m (.stepc k va res ip) h sh 0 hs (Nat.zero_le _)
          (fun _ _ _ he => MCall.noConfusion he)
          (fun _ _ _ _ he => Nat.zero_le _)
        exact ih hf2 (lt_of_lt_of_le hlt S.1) hr

theorem readRun_frame {h h2 : Heap} (hwf : h.wfb = true)
    (hfr : ∀ b, b < h.nxt → h2.get b = h.get b) :
    ∀ (m : Nat) (rc : RCall),
      (match rc with
       | .val a => a < h.nxt
       | .arrL l => ∀ x ∈ l, x < h.nxt
       | .objL l => ∀ e ∈ l, e.2 < h.nxt) →
      readRun m h2 rc = readRun m h rc := by
  intro m
  induction m with
  | zero => intro rc _; rfl
  | succ mm ih =>
    intro rc hok
    cases rc with
    | val a =>
      have ha : a < h.nxt := hok
      have hga := hfr a ha
      simp only [readRun, hga]
      cases hg : h.get a with
      | none => rfl
      | some obj =>
        cases obj with
        | prim p => rfl
        | arr l =>
          have hch := (wfb_children hwf hg).2
          exact ih (.arrL l) (fun x hx => hch x hx)
        | dict l =>
          have hch := (wfb_children hwf hg).2
          exact ih (.objL l) (fun e he => hch e.2 (List.mem_map_of_mem _ he))
    | arrL l =>
      cases l with
      | nil => rfl
      | cons a rest =>
        have h1 := ih (.val a) (hok a (List.mem_cons_self a rest))
        have h2' := ih (.arrL rest) (fun x hx => hok x (List.mem_cons_of_mem a hx))
        simp only [readRun, h1, h2']
    | objL l =>
      cases l with
      | nil => rfl
      | cons e rest =>
        obtain ⟨k, a⟩ := e
        have h1 := ih (.val a) (hok (k, a) (List.mem_cons_self _ _))
        have h2' := ih (.objL rest) (fun x hx => hok x (List.mem_cons_of_mem _ hx))
        simp only [readRun, h1, h2']

/-- C9: `deep_merge` on the heap model — `result = copy.deepcopy(base)`
plus in-place `result[k] = ...` assignments — returns a fresh dict
address (at or above the old allocation frontier, hence a new object) and
leaves every pre-existing address with an unchanged stored object, so the
values of `base` and `overlay` (and anything else reachable in the old
heap) read back exactly as before the call. -/
theorem C9_deep_merge_frame (fuel b o : Nat) (h : Heap) (rh : Nat × Heap)
    (bf of : List (Str × Nat)) (hwf : h.wfb = true)
    (hb : h.get b = some (.dict bf)) (ho : h.get o = some (.dict of))
    (hm : hDeepMerge fuel b o h = some rh) :
    h.nxt ≤ rh.1
    ∧ (∃ f', rh.2.get rh.1 = some (.dict f'))
    ∧ (∀ m a, a < h.nxt → readRun m rh.2 (.val a) = readRun m h (.val a)) := by
  cases fuel with
  | zero => exact Option.noConfusion hm
  | succ n =>
    unfold hDeepMerge at hm
    simp only [hrun] at hm
    cases hdc : deepcopy (n + 1) b h with
    | none => rw [hdc] at hm; exact Option.noConfusion hm
    | some ch =>
      rw [hdc] at hm
      simp only [] at hm
      obtain ⟨d1, d2, d3⟩ := deepcopy_spec hdc
      obtain ⟨f0, hf0⟩ := deepcopy_dict hb hdc
      split at hm
      · rename_i items heq
        have hres1 : rh.1 = ch.1 := loop_res hm
        have F := hrun_frame n (.loop items ch.1 false) ch.2 rh h.nxt hm
          (le_trans d1 (le_of_lt d2))
          (fun _ res' _ he => by injection he with _ h2 _; rw [← h2]; exact d1)
          (fun _ _ _ _ he => MCall.noConfusion he)
        obtain ⟨fd, hfd⟩ := loop_dict hf0 d2 hm
        refine ⟨?_, ?_, ?_⟩
        · rw [hres1]; exact d1
        · rw [hres1]; exact ⟨fd, hfd⟩
        · intro m a ha
          exact readRun_frame hwf (fun bb hbb => (F.2 bb hbb).trans (d3 bb hbb)) m (.val a) ha
      · exact Option.noConfusion hm

theorem C9_deep_merge_frame_witness :
    demoHeap.nxt ≤ 6
    ∧ readRun 5 demoHeapOut (.val 0) = readRun 5 demoHeap (.val 0)
    ∧ readRun 5 demoHeapOut (.val 2) = readRun 5 demoHeap (.val 2) := by
  have H := C9_deep_merge_frame 10 0 2 demoHeap (6, demoHeapOut)
    [(cs "a", 1)] [(cs "b", 3)] (by decide) (by decide) (by decide) (by decide)
  exact ⟨H.1, H.2.2 5 0 (by decide), H.2.2 5 2 (by decide)⟩
